import Mathlib

/-!
# Verification of the hololive OCG helper core

A shallow embedding, in Lean 4, of the core algorithms of the
`hololive_OCG_helper` repository, together with theorems settling the
specification's claims about them.

Conventions of the embedding:
* Python strings are modelled as `List Char` (abbreviated `Str`); the
  `String`-level entry points wrap the `List Char` pipeline through
  `String.data` / `String.mk`.
* Python `str.splitlines` is modelled as splitting on `'\n'` (the texts fed
  to the normalizer are produced by joining on `"\n"`, and blank lines are
  filtered out immediately after splitting, so the extra Python separators
  are immaterial).
* Python `str.strip()` is modelled by `pyTrim`, which strips the ASCII
  whitespace characters (space, tab, CR, LF, VT, FF).
* Loops with non-structural index jumps are modelled with an explicit fuel
  argument (always called with fuel `≥` the list length, which is shown to
  be enough for the loop to run to completion).
-/

namespace Hocg

/-- Python strings, modelled as lists of characters. -/
abbrev Str := List Char

/-- The ASCII whitespace characters stripped by Python's `str.strip()`. -/
def pySpace (c : Char) : Bool :=
  c = ' ' || c = '\t' || c = '\n' || c = '\r' || c = '\x0b' || c = '\x0c'

/-- Strip leading whitespace (`str.lstrip`). -/
def pyTrimL (s : Str) : Str := s.dropWhile pySpace

/-- Strip trailing whitespace (`str.rstrip`). -/
def pyTrimR : Str → Str
  | [] => []
  | c :: rest =>
    match pyTrimR rest with
    | [] => if pySpace c then [] else [c]
    | r => c :: r

/-- Python `str.strip()`. -/
def pyTrim (s : Str) : Str := pyTrimR (pyTrimL s)

/-- Split on `'\n'`, keeping empty pieces (model of `str.splitlines`;
the pipeline filters out blank lines right after, see the file header). -/
def splitNl : Str → List Str
  | [] => [[]]
  | c :: rest =>
    if c = '\n' then [] :: splitNl rest
    else
      match splitNl rest with
      | [] => [[c]]
      | s :: ss => (c :: s) :: ss

/-- Join lines with `'\n'` (`"\n".join(...)`). -/
def joinNl : List Str → Str
  | [] => []
  | [s] => s
  | s :: rest => s ++ '\n' :: joinNl rest

/-- Join strings with a single space (`" ".join(...)`). -/
def joinSp : List Str → Str
  | [] => []
  | [s] => s
  | s :: rest => s ++ ' ' :: joinSp rest

/-- The line-splitting front end shared by both normalizers:
`[l.strip() for l in text.splitlines() if l.strip()]`. -/
def cleanLines (s : Str) : List Str :=
  ((splitNl s).map pyTrim).filter (fun l => l ≠ [])

/-- Characters kept by `line.replace("：", "").replace(":", "")`. -/
def notColon (c : Char) : Bool := ¬ (c = '：' || c = ':')

/-- `line.replace("：", "").replace(":", "").strip()` — the `_normalize_label`
helper of both normalizers. -/
def normLabel (s : Str) : Str :=
  pyTrim (s.filter notColon)

/-- Does the (re-stripped) line start with `"#"`?  Used by the tag-collecting
loop: `lines[j].strip().startswith("#")`. -/
def hashLine (s : Str) : Bool :=
  match pyTrim s with
  | [] => false
  | c :: _ => c = '#'

/-- Python's `needle in hay` on strings: contiguous-substring test. -/
def subStr (needle : Str) : Str → Bool
  | [] => needle.isEmpty
  | c :: t => needle.isPrefixOf (c :: t) || subStr needle t

end Hocg

namespace HocgTool

/-!
## `tools/hocg_tool2.py` — `normalize_raw_text`

A faithful embedding of `normalize_raw_text(text, *, remove_private=False)`
(`src/tools/hocg_tool2.py`, lines 308–404).  The `while i < len(lines)`
loop with its index jumps is modelled by `normGo` with an explicit fuel;
`fuel = lines.length` always suffices because every iteration consumes at
least one line.
-/

open Hocg

/-- `MERGE_LABELS` of `hocg_tool2.normalize_raw_text`. -/
def mergeLabels : List Str :=
  ["カードタイプ".data, "レアリティ".data, "色".data, "LIFE".data, "HP".data,
   "カードナンバー".data]

/-- `REMOVE_LABELS` of `hocg_tool2.normalize_raw_text` (empty unless
`remove_private`). -/
def removeLabels (removePrivate : Bool) : List Str :=
  if removePrivate then
    ["イラストレーター名".data, "カードナンバー".data, "収録商品".data]
  else []

/-- `ALL_LABELS` of `hocg_tool2.normalize_raw_text`. -/
def allLabels : List Str :=
  mergeLabels ++
  ["タグ".data, "推しスキル".data, "SP推しスキル".data, "Bloomレベル".data,
   "アーツ".data, "バトンタッチ".data, "エクストラ".data,
   "イラストレーター名".data, "カードナンバー".data, "キーワード".data,
   "収録商品".data]

/-- The alternatives of `SECTION_START_RE` in `hocg_tool2` (note: no
`Bloomレベル`, no `タグ`, no `収録商品`). -/
def sectionStartLabels : List Str :=
  ["カードタイプ".data, "レアリティ".data, "色".data, "LIFE".data, "HP".data,
   "推しスキル".data, "SP推しスキル".data, "アーツ".data, "バトンタッチ".data,
   "エクストラ".data, "イラストレーター名".data, "カードナンバー".data,
   "キーワード".data]

/-- `SECTION_START_RE.match(line)`: does any alternative occur as a prefix
of the raw line? -/
def sectionStart (s : Str) : Bool :=
  sectionStartLabels.any (fun lbl => lbl.isPrefixOf s)

/-- The keyword list of the `収録商品` "is this a real product section"
look-ahead. -/
def productKeywords : List Str :=
  ["Accessories".data, "Boosters".data, "発売日".data, "【使用可能カード】".data,
   "スタートデッキ".data, "ブースターパック".data, "エントリーカップ".data]

/-- `_is_label_line(s)` of `hocg_tool2.normalize_raw_text`. -/
def isLabelLine (s : Str) : Bool :=
  let n := normLabel s
  allLabels.contains n || allLabels.any (fun lbl => (lbl ++ [' ']).isPrefixOf n)

/-- One pass of the `while i < len(lines)` loop of
`hocg_tool2.normalize_raw_text`, over already-cleaned lines.  The branches
appear in the source's order: `REMOVE_LABELS`, the `タグ` block (falling
through when no hashtag lines follow), the merge block, the `収録商品`
look-ahead, and the final `out.append(...)`. -/
def normGo (removePrivate : Bool) : Nat → List Str → List Str
  | 0, _ => []
  | _ + 1, [] => []
  | fuel + 1, l :: rest =>
    let lab := normLabel l
    if lab ∈ removeLabels removePrivate then
      match rest with
      | [] => []
      | m :: rest' =>
        if normLabel m ∈ allLabels then normGo removePrivate fuel rest
        else normGo removePrivate fuel rest'
    else if lab = "タグ".data ∧ rest.takeWhile hashLine ≠ [] then
      "タグ".data :: joinSp ((rest.takeWhile hashLine).map pyTrim) ::
        normGo removePrivate fuel (rest.dropWhile hashLine)
    else if lab ∈ mergeLabels ∧ rest ≠ [] then
      match rest with
      | [] => []
      | v :: rest' =>
        if isLabelLine v then lab :: normGo removePrivate fuel rest
        else (lab ++ ' ' :: v) :: normGo removePrivate fuel rest'
    else if lab = "収録商品".data then
      if productKeywords.any (fun k => subStr k (joinSp (rest.take 6))) then
        normGo removePrivate fuel (rest.dropWhile (fun s => ¬ sectionStart s))
      else lab :: normGo removePrivate fuel rest
    else
      (if lab ≠ l ∧ lab ∈ allLabels then lab else l) ::
        normGo removePrivate fuel rest

/-- `normalize_raw_text` of `hocg_tool2.py` at the line level. -/
def normLines (removePrivate : Bool) (lines : List Str) : List Str :=
  normGo removePrivate lines.length lines

/-- `normalize_raw_text(text, *, remove_private=...)` of `hocg_tool2.py`. -/
def normalize_raw_text (removePrivate : Bool) (text : String) : String :=
  String.mk (joinNl (normLines removePrivate (cleanLines text.data)))

end HocgTool

namespace Refine

/-!
## `tools/hocg_refine_update.py` — `normalize_raw_text`

A faithful embedding of the refine-pass normalizer
(`src/tools/hocg_refine_update.py`, lines 18–153).  It differs from the
scraper's normalizer in that it drops a fixed noise vocabulary, relocates a
title line in front of the first section label, always removes the
`REMOVE_LABELS` blocks, and falls back to the original text when the
refined output is empty.
-/

open Hocg

/-- `NOISE_EXACT` of the refine pass. -/
def noiseExact : List Str :=
  ["MENU".data, "CLOSE".data, "FOR BEGINNERS".data, "RULE/Q&A".data,
   "NEWS".data, "PRODUCT".data, "EVENT".data, "SHOP".data, "CARD LIST".data,
   "DECK RECIPE".data, "TOP".data, "CARDLIST".data, "カードリスト".data,
   "ーカードリストー".data]

/-- `MERGE_LABELS` (same set as the scraper's). -/
def mergeLabels : List Str := HocgTool.mergeLabels

/-- `REMOVE_LABELS` (always active in the refine pass). -/
def removeLabels : List Str :=
  ["イラストレーター名".data, "カードナンバー".data, "収録商品".data]

/-- `ALL_LABELS` (same set as the scraper's). -/
def allLabels : List Str := HocgTool.allLabels

/-- The alternatives of the refine pass's `SECTION_START_RE` (this one
includes `Bloomレベル`). -/
def sectionStartLabels : List Str :=
  ["カードタイプ".data, "レアリティ".data, "色".data, "LIFE".data, "HP".data,
   "推しスキル".data, "SP推しスキル".data, "Bloomレベル".data, "アーツ".data,
   "バトンタッチ".data, "エクストラ".data, "イラストレーター名".data,
   "カードナンバー".data, "キーワード".data]

/-- `SECTION_START_RE.match(...)` of the refine pass (applied by the caller
to the *normalized* label, see `normGo`). -/
def sectionStart (s : Str) : Bool :=
  sectionStartLabels.any (fun lbl => lbl.isPrefixOf s)

/-- `_is_label_line` of the refine pass (identical to the scraper's). -/
def isLabelLine (s : Str) : Bool := HocgTool.isLabelLine s

/-- Drop the noise lines: the first `for line in lines` loop. -/
def dropNoise (lines : List Str) : List Str :=
  lines.filter (fun l => ¬ normLabel l ∈ noiseExact)

/-- Index of the first line whose normalized label is a section label
(`first_label_idx`). -/
def firstLabelIdx (lines : List Str) : Option Nat :=
  lines.findIdx? (fun l => normLabel l ∈ allLabels)

/-- The backwards title scan: the last line before the first label that is
neither a label, nor noise, nor hashtag-prefixed. -/
def findTitle (cands : List Str) : Option Str :=
  cands.reverse.find? (fun cand =>
    ¬ normLabel cand ∈ allLabels ∧ ¬ normLabel cand ∈ noiseExact ∧
      ¬ "#".data.isPrefixOf cand)

/-- The title-relocation step: `cleaned = ([title] if title else []) +
cleaned[first_label_idx:]`. -/
def relocateTitle (cleaned : List Str) : List Str :=
  match firstLabelIdx cleaned with
  | none => cleaned
  | some 0 => cleaned
  | some idx =>
    match findTitle (cleaned.take idx) with
    | some title => title :: cleaned.drop idx
    | none => cleaned.drop idx

/-- The `while i < len(cleaned)` loop of the refine pass.  Identical in
structure to the scraper's loop except that `REMOVE_LABELS` is always
active (so the `収録商品` look-ahead below it is unreachable) and the
section-skip matches `SECTION_START_RE` against the *normalized* line. -/
def normGo : Nat → List Str → List Str
  | 0, _ => []
  | _ + 1, [] => []
  | fuel + 1, l :: rest =>
    let lab := normLabel l
    if lab ∈ removeLabels then
      match rest with
      | [] => []
      | m :: rest' =>
        if normLabel m ∈ allLabels then normGo fuel rest
        else normGo fuel rest'
    else if lab = "タグ".data ∧ rest.takeWhile hashLine ≠ [] then
      "タグ".data :: joinSp ((rest.takeWhile hashLine).map pyTrim) ::
        normGo fuel (rest.dropWhile hashLine)
    else if lab ∈ mergeLabels ∧ rest ≠ [] then
      match rest with
      | [] => []
      | v :: rest' =>
        if isLabelLine v then lab :: normGo fuel rest
        else (lab ++ ' ' :: v) :: normGo fuel rest'
    else if lab = "収録商品".data then
      if HocgTool.productKeywords.any
          (fun k => subStr k (joinSp (rest.take 6))) then
        normGo fuel (rest.dropWhile (fun s => ¬ sectionStart (normLabel s)))
      else lab :: normGo fuel rest
    else
      (if lab ≠ l ∧ lab ∈ allLabels then lab else l) :: normGo fuel rest

/-- `normalize_raw_text(text)` of `hocg_refine_update.py`, including the
leading `if not text` guard and the trailing `refined if refined else text`
fallback. -/
def normalize_raw_text (text : String) : String :=
  if text.data = [] then text
  else
    let cleaned := relocateTitle (dropNoise (cleanLines text.data))
    let refined := pyTrim (joinNl (normGo cleaned.length cleaned))
    if refined = [] then text else String.mk refined

end Refine

namespace HocgTool

/-!
## `tools/hocg_tool2.py` — the detail parser's card-number resolution

`parse_detail` (lines 417–477) works on `raw_full`, the text extracted from
the detail container.  The embedding below covers the part of `parse_detail`
that decides between "return a record" and "skip" and chooses the record's
`card_number`; the HTML-derived fields (name, tags, image URL) play no role
in that decision.
-/

open Hocg

/-- ASCII model of the `\w` class used by the `\b` boundaries of
`CARDNO_RE` (non-ASCII characters are treated as non-word characters). -/
def wordChar (c : Char) : Bool := c.isAlphanum || c = '_'

/-- Match `[hH][A-Za-z]{1,5}\d{2}-\d{3}\b` at the head of `s` (the leading
`\b` is checked by the caller via the previous character).  The greedy
`{1,5}` plus backtracking is equivalent to taking the whole letter run and
failing when it is empty or longer than five. -/
def cardnoAt (s : Str) : Option Str :=
  match s with
  | [] => none
  | c :: rest =>
    if c = 'h' ∨ c = 'H' then
      let run := rest.takeWhile Char.isAlpha
      if 1 ≤ run.length ∧ run.length ≤ 5 then
        match rest.drop run.length with
        | d1 :: d2 :: '-' :: e1 :: e2 :: e3 :: tail =>
          if d1.isDigit && d2.isDigit && e1.isDigit && e2.isDigit &&
              e3.isDigit &&
              (match tail with | [] => true | x :: _ => ¬ wordChar x) then
            some (c :: run ++ d1 :: d2 :: '-' :: e1 :: e2 :: [e3])
          else none
        | _ => none
      else none
    else none

/-- `CARDNO_RE.search`: leftmost match, scanning every start position and
tracking the previous character for the leading `\b`. -/
def cardnoFind : Option Char → Str → Option Str
  | _, [] => none
  | prev, c :: rest =>
    if prev.all (fun p => ¬ wordChar p) then
      match cardnoAt (c :: rest) with
      | some m => some m
      | none => cardnoFind (some c) rest
    else cardnoFind (some c) rest

/-- `CARDNO_RE.search(s)`, returning `group(0)` when a match exists. -/
def cardnoSearch (s : Str) : Option Str := cardnoFind none s

/-- Match `label\s*[：:]\s*(.+)` (the `_extract_field_by_label` pattern) at
the head of a line's suffix; on success returns `group(1).strip()` (the
regex matches exactly when at least one character follows the colon, and
the stripped group is then the trimmed text after the colon). -/
def fieldValueHead (label : Str) (l : Str) : Option Str :=
  if label.isPrefixOf l then
    match (l.drop label.length).dropWhile pySpace with
    | c :: rest =>
      if c = '：' ∨ c = ':' then
        if rest ≠ [] then some (pyTrim (rest.dropWhile pySpace)) else none
      else none
    | [] => none
  else none

/-- `pat.search(line)` for the `_extract_field_by_label` pattern: try every
start position, leftmost first. -/
def fieldValueAt (label : Str) : Str → Option Str
  | [] => none
  | c :: rest =>
    match fieldValueHead label (c :: rest) with
    | some v => some v
    | none => fieldValueAt label rest

/-- `_extract_field_by_label(text, label)` (lines 298–305): the first line
whose stripped text matches the pattern yields the (stripped) value;
otherwise the empty string. -/
def extractFieldByLabel (text : Str) (label : Str) : Str :=
  go ((splitNl text).map pyTrim)
where
  go : List Str → Str
    | [] => []
    | l :: rest =>
      match fieldValueAt label (pyTrim l) with
      | some v => v
      | none => go rest

/-- The card-number resolution of `parse_detail` (lines 423–437) together
with the record's `"card_number": card_no or fallback_card_no` entry
(line 469): step 1 searches the labeled `カードナンバー` field, step 2
searches the whole page text, and a page with neither is skipped
(`return None`). -/
def parse_detail_card (rawFull : Str) (fallback : Str) : Option Str :=
  let cn := extractFieldByLabel rawFull "カードナンバー".data
  let step1 : Option Str := if cn ≠ [] then cardnoSearch cn else none
  let card_no : Str :=
    match step1 with
    | some m => m
    | none =>
      match cardnoSearch rawFull with
      | some m => m
      | none => []
  if card_no = [] then none
  else some (if card_no ≠ [] then card_no else fallback)

end HocgTool

namespace Sha256

/-!
## SHA-256 (`hashlib.sha256(s.encode("utf-8")).hexdigest()`)

An executable SHA-256 over `Nat` byte lists with explicit `% 2 ^ 32`
arithmetic, used to embed `sha256_text` of `hocg_tool2.py`.
-/

/-- UTF-8 encoding of one character. -/
def utf8Char (c : Char) : List Nat :=
  let n := c.toNat
  if n < 0x80 then [n]
  else if n < 0x800 then
    [0xC0 + n / 0x40, 0x80 + n % 0x40]
  else if n < 0x10000 then
    [0xE0 + n / 0x1000, 0x80 + n / 0x40 % 0x40, 0x80 + n % 0x40]
  else
    [0xF0 + n / 0x40000, 0x80 + n / 0x1000 % 0x40, 0x80 + n / 0x40 % 0x40,
     0x80 + n % 0x40]

/-- UTF-8 encoding of a string. -/
def utf8 (s : Hocg.Str) : List Nat := s.flatMap utf8Char

/-- 32-bit right rotation. -/
def rotr (n x : Nat) : Nat := (x / 2 ^ n + x % 2 ^ n * 2 ^ (32 - n)) % 2 ^ 32

/-- 32-bit right shift. -/
def shr (n x : Nat) : Nat := x / 2 ^ n

/-- 32-bit XOR / AND / NOT over `Nat`. -/
def xor32 (a b : Nat) : Nat := (a ^^^ b) % 2 ^ 32

def and32 (a b : Nat) : Nat := (a &&& b) % 2 ^ 32

def not32 (a : Nat) : Nat := 2 ^ 32 - 1 - a % 2 ^ 32

/-- The SHA-256 round constants. -/
def K : List Nat :=
  [1116352408, 1899447441, 3049323471, 3921009573, 961987163, 1508970993,
   2453635748, 2870763221, 3624381080, 310598401, 607225278, 1426881987,
   1925078388, 2162078206, 2614888103, 3248222580, 3835390401, 4022224774,
   264347078, 604807628, 770255983, 1249150122, 1555081692, 1996064986,
   2554220882, 2821834349, 2952996808, 3210313671, 3336571891, 3584528711,
   113926993, 338241895, 666307205, 773529912, 1294757372, 1396182291,
   1695183700, 1986661051, 2177026350, 2456956037, 2730485921, 2820302411,
   3259730800, 3345764771, 3516065817, 3600352804, 4094571909, 275423344,
   430227734, 506948616, 659060556, 883997877, 958139571, 1322822218,
   1537002063, 1747873779, 1955562222, 2024104815, 2227730452, 2361852424,
   2428436474, 2756734187, 3204031479, 3329325298]

/-- The SHA-256 initial hash state. -/
def H0 : List Nat :=
  [1779033703, 3144134277, 1013904242, 2773480762,
   1359893119, 2600822924, 528734635, 1541459225]

/-- Pad the message (append `0x80`, zeros, then the 64-bit bit length). -/
def pad (msg : List Nat) : List Nat :=
  let len := msg.length
  let zeros := (64 - (len + 9) % 64) % 64
  msg ++ 0x80 :: List.replicate zeros 0 ++
    (List.range 8).map (fun i => len * 8 / 2 ^ ((7 - i) * 8) % 256)

/-- Split into 64-byte chunks. -/
def chunks : Nat → List Nat → List (List Nat)
  | 0, _ => []
  | _ + 1, [] => []
  | fuel + 1, bs => bs.take 64 :: chunks fuel (bs.drop 64)

/-- Big-endian 32-bit words of a chunk. -/
def toWords : List Nat → List Nat
  | b0 :: b1 :: b2 :: b3 :: rest =>
    (((b0 * 256 + b1) * 256 + b2) * 256 + b3) :: toWords rest
  | _ => []

/-- Extend 16 words to 64 words of the message schedule. -/
def extendW : Nat → List Nat → List Nat
  | 0, w => w
  | fuel + 1, w =>
    let n := w.length
    let w15 := w.getD (n - 15) 0
    let w2 := w.getD (n - 2) 0
    let s0 := xor32 (xor32 (rotr 7 w15) (rotr 18 w15)) (shr 3 w15)
    let s1 := xor32 (xor32 (rotr 17 w2) (rotr 19 w2)) (shr 10 w2)
    extendW fuel
      (w ++ [(w.getD (n - 16) 0 + s0 + w.getD (n - 7) 0 + s1) % 2 ^ 32])

/-- One compression round. -/
def round (st : List Nat) (kw : Nat) : List Nat :=
  match st with
  | [a, b, c, d, e, f, g, h] =>
    let s1 := xor32 (xor32 (rotr 6 e) (rotr 11 e)) (rotr 25 e)
    let ch := xor32 (and32 e f) (and32 (not32 e) g)
    let t1 := (h + s1 + ch + kw) % 2 ^ 32
    let s0 := xor32 (xor32 (rotr 2 a) (rotr 13 a)) (rotr 22 a)
    let maj := xor32 (xor32 (and32 a b) (and32 a c)) (and32 b c)
    let t2 := (s0 + maj) % 2 ^ 32
    [(t1 + t2) % 2 ^ 32, a, b, c, (d + t1) % 2 ^ 32, e, f, g]
  | st => st

/-- Compress one chunk into the running hash state. -/
def compress (h : List Nat) (chunk : List Nat) : List Nat :=
  let w := extendW 48 (toWords chunk)
  let st := (K.zipWith (fun k wi => (k + wi) % 2 ^ 32) w).foldl round h
  (h.zipWith (fun a b => (a + b) % 2 ^ 32) st)

/-- Hex rendering of one 32-bit word (8 lowercase hex digits). -/
def hexWord (w : Nat) : Hocg.Str :=
  (List.range 8).map (fun i =>
    let d := w / 2 ^ ((7 - i) * 4) % 16
    if d < 10 then Char.ofNat (48 + d) else Char.ofNat (87 + d))

/-- `hashlib.sha256(bytes).hexdigest()`. -/
def sha256Hex (msg : List Nat) : Hocg.Str :=
  let padded := pad msg
  ((chunks (padded.length / 64) padded).foldl compress H0).flatMap hexWord

end Sha256

namespace Store

/-!
## `tools/hocg_tool2.py` — the store/upsert layer

Relational state for the `tags`, `print_tags` and `prints` tables, with
`normalize_tag`, `upsert_tag`, `replace_print_tags` (lines 158–188) and
`upsert_print` (lines 190–237).  SQLite's `AUTOINCREMENT` is modelled by a
`next id` counter; `now_iso()` is impure in the source and is therefore an
explicit argument of `upsert_print`.
-/

open Hocg

/-- `sha256_text(s)` of `hocg_tool2.py` (line 47). -/
def sha256_text (s : Str) : Str := Sha256.sha256Hex (Sha256.utf8 s)

/-- `normalize_tag(tag)` (lines 158–163): strip, drop a leading `#`, remove
all whitespace, lowercase (ASCII model of `str.lower`). -/
def normalize_tag (tag : Str) : Str :=
  let t := pyTrim tag
  let t := if "#".data.isPrefixOf t then t.drop 1 else t
  (t.filter (fun c => ¬ pySpace c)).map Char.toLower

/-- One row of the `tags` table. -/
structure TagRow where
  tagId : Nat
  tag : Str
  normalized : Str
deriving DecidableEq, Repr

/-- The tag-related tables. -/
structure TagDB where
  tags : List TagRow
  nextTagId : Nat
  printTags : List (Nat × Nat)
deriving DecidableEq, Repr

/-- `SELECT tag_id FROM tags WHERE tag=?`. -/
def findTag (rows : List TagRow) (t : Str) : Option TagRow :=
  rows.find? (fun r => r.tag = t)

/-- `upsert_tag(conn, tag)` (lines 166–177): insert-or-update keyed on the
unique `tag` column, then re-select the row id. -/
def upsert_tag (db : TagDB) (t : Str) : TagDB × Nat :=
  match findTag db.tags t with
  | some r =>
    ({ db with
        tags := db.tags.map (fun row =>
          if row.tag = t then { row with normalized := normalize_tag t }
          else row) },
      r.tagId)
  | none =>
    ({ db with
        tags := db.tags ++ [⟨db.nextTagId, t, normalize_tag t⟩],
        nextTagId := db.nextTagId + 1 },
      db.nextTagId)

/-- The tag id a tag name resolves to (via the unique `tag` column). -/
def tagIdOf (db : TagDB) (t : Str) : Option Nat :=
  (findTag db.tags t).map (fun r => r.tagId)

/-- The per-tag step of `replace_print_tags`: upsert the tag, then
`INSERT OR IGNORE` the association. -/
def replaceStep (printId : Nat) (acc : TagDB) (t : Str) : TagDB :=
  let r := upsert_tag acc t
  if (printId, r.2) ∈ r.1.printTags then r.1
  else { r.1 with printTags := r.1.printTags ++ [(printId, r.2)] }

/-- `replace_print_tags(conn, print_id, tags)` (lines 180–188): delete every
`print_tags` row of the print, then upsert each tag and `INSERT OR IGNORE`
the association. -/
def replace_print_tags (db : TagDB) (printId : Nat) (tags : List Str) :
    TagDB :=
  tags.foldl (replaceStep printId)
    { db with printTags := db.printTags.filter (fun pt => pt.1 ≠ printId) }

/-- Well-formedness of the tag tables: unique tag names, and ids below the
`AUTOINCREMENT` counter. -/
def TagDB.WF (db : TagDB) : Prop :=
  (db.tags.map (fun r => r.tag)).Nodup ∧
    ∀ r ∈ db.tags, r.tagId < db.nextTagId

instance (db : TagDB) : Decidable db.WF := by
  unfold TagDB.WF; infer_instance

/-- One row of the `prints` table. -/
structure PrintRow where
  printId : Nat
  cardNumber : Str
  setCode : Str
  rarity : Str
  color : Str
  cardType : Str
  product : Str
  nameJa : Str
  imageUrl : Str
  imageSha256 : Str
  detailId : Option Nat
  detailUrl : Str
  updatedAt : Str
deriving DecidableEq, Repr

/-- The `detail` dict passed to `upsert_print`; `None` values are modelled
as `Option.none` (the source applies `or ""` to each text field). -/
structure Detail where
  setCode : Option Str := none
  rarity : Option Str := none
  color : Option Str := none
  cardType : Option Str := none
  product : Option Str := none
  name : Option Str := none
  imageUrl : Option Str := none
  detailId : Option Nat := none
  detailUrl : Option Str := none
deriving DecidableEq, Repr

/-- The `prints` table. -/
structure PrintsDB where
  rows : List PrintRow
  nextPrintId : Nat
deriving DecidableEq, Repr

/-- Unique card numbers, ids below the counter. -/
def PrintsDB.WF (db : PrintsDB) : Prop :=
  (db.rows.map (fun r => r.cardNumber)).Nodup ∧
    ∀ r ∈ db.rows, r.printId < db.nextPrintId

instance (db : PrintsDB) : Decidable db.WF := by
  unfold PrintsDB.WF; infer_instance

/-- `upsert_print(conn, card_number, detail)` (lines 190–237): strip the
card number, derive the field values (`or ""` defaults and
`sha256_text(img_url) if img_url else ""`), insert-or-update keyed on the
unique `card_number`, then re-select `print_id`. -/
def upsert_print (db : PrintsDB) (cardNumber : Str) (d : Detail)
    (now : Str) : PrintsDB × Option Nat :=
  let cn := pyTrim cardNumber
  let imgUrl := d.imageUrl.getD []
  let imgSha := if imgUrl ≠ [] then sha256_text imgUrl else []
  let upd : PrintRow → PrintRow := fun r =>
    { r with
        cardNumber := cn
        setCode := d.setCode.getD []
        rarity := d.rarity.getD []
        color := d.color.getD []
        cardType := d.cardType.getD []
        product := d.product.getD []
        nameJa := d.name.getD []
        imageUrl := imgUrl
        imageSha256 := imgSha
        detailId := d.detailId
        detailUrl := d.detailUrl.getD []
        updatedAt := now }
  let db' :=
    match db.rows.find? (fun r => r.cardNumber = cn) with
    | some _ =>
      { db with
          rows := db.rows.map (fun r => if r.cardNumber = cn then upd r else r) }
    | none =>
      { db with
          rows := db.rows ++
            [upd
              { printId := db.nextPrintId, cardNumber := cn, setCode := []
                rarity := [], color := [], cardType := [], product := []
                nameJa := [], imageUrl := [], imageSha256 := []
                detailId := none, detailUrl := [], updatedAt := [] }]
          nextPrintId := db.nextPrintId + 1 }
  (db', (db'.rows.find? (fun r => r.cardNumber = cn)).map (fun r => r.printId))

end Store

namespace Crawler

/-!
## `tools/hocg_tool2.py` — the crawl loop

`process_list_page` (lines 559–679), `scrape_expansion` (lines 682–707) and
`cmd_scrape` (lines 710–741), reduced to their control flow over pure data:
a list item is a (detail id, card number) pair plus a flag telling whether
its detail fetch+parse yields a record; `pages` maps a page number to the
items extracted from that list page.  The embedding follows the sequential
(`workers == 1`) path; the worker-pool path performs the identical
seen-check-then-add on `args._seen_ids` before scheduling each fetch
(lines 605–607 versus 648–650).
-/

open Hocg

/-- One extracted list item, plus whether `parse_detail` succeeds on its
detail page. -/
structure Item where
  id : Nat
  cardNumber : Str
  ok : Bool
deriving DecidableEq, Repr

/-- The per-run crawl state: `args._seen_ids`, the detail pages actually
fetched (in order), and `args._seen_total`. -/
structure CrawlSt where
  seen : List Nat
  fetched : List Nat
  total : Nat
deriving DecidableEq, Repr

/-- The per-item loop of `process_list_page`: skip seen ids, otherwise mark
seen, fetch the detail page, count it as new, bump the total on a parsed
detail, and stop when `max_cards` is reached.  Returns the new state, the
`new_items` count and the stop flag. -/
def handleItems (maxCards : Nat) : CrawlSt → List Item → CrawlSt × Nat × Bool
  | st, [] => (st, 0, false)
  | st, it :: rest =>
    if it.id ∈ st.seen then handleItems maxCards st rest
    else
      let st1 : CrawlSt :=
        { st with seen := it.id :: st.seen, fetched := st.fetched ++ [it.id] }
      if it.ok then
        let st2 := { st1 with total := st1.total + 1 }
        if maxCards ≠ 0 ∧ maxCards ≤ st2.total then (st2, 1, true)
        else
          let r := handleItems maxCards st2 rest
          (r.1, r.2.1 + 1, r.2.2)
      else
        let r := handleItems maxCards st1 rest
        (r.1, r.2.1 + 1, r.2.2)

/-- The `for page in range(1, args.max_pages + 1)` loop of
`scrape_expansion`: process the page, return on the `max_cards` stop, break
when the page yielded no new items.  Also returns the list of visited
pages. -/
def scrapeGo (pages : Nat → List Item) (maxCards : Nat) :
    CrawlSt → Nat → Nat → CrawlSt × List Nat × Bool
  | st, _, 0 => (st, [], false)
  | st, page, rem + 1 =>
    let r := handleItems maxCards st (pages page)
    if r.2.2 then (r.1, [page], true)
    else if r.2.1 = 0 then (r.1, [page], false)
    else
      let r' := scrapeGo pages maxCards r.1 (page + 1) rem
      (r'.1, page :: r'.2.1, r'.2.2)

/-- `scrape_expansion` for one set code. -/
def scrape_expansion (pages : Nat → List Item) (maxPages maxCards : Nat)
    (st : CrawlSt) : CrawlSt × List Nat × Bool :=
  scrapeGo pages maxCards st 1 maxPages

/-- The expansion loop of `cmd_scrape` (`expansion == "all"`): shared
per-run state, the `max_cards` pre-check, and stop propagation. -/
def cmd_scrapeGo (maxPages maxCards : Nat) :
    CrawlSt → List (Nat → List Item) → CrawlSt
  | st, [] => st
  | st, pages :: rest =>
    if maxCards ≠ 0 ∧ maxCards ≤ st.total then st
    else
      let r := scrape_expansion pages maxPages maxCards st
      if r.2.2 then r.1 else cmd_scrapeGo maxPages maxCards r.1 rest

/-- A whole run, starting from the empty `args._seen_ids` set
(`cmd_scrape`, lines 715–717). -/
def cmd_scrape (expansions : List (Nat → List Item))
    (maxPages maxCards : Nat) : CrawlSt :=
  cmd_scrapeGo maxPages maxCards ⟨[], [], 0⟩ expansions

end Crawler

namespace SearchDb

/-!
## `app/services/db.py` — the adaptive search engine

The query builders `_normalize_term`, `_unique_terms`, `_is_related_term`,
`_build_search_terms` (lines 47–93) and the search entry points
`query_suggest` (lines 152–239) and `query_exact` (lines 242–324),
evaluated against a relational model of the surrogate-id tag schema
(`print_tags(print_id, tag_id)` + `tags(tag_id, tag, normalized)`, the
"Case 2" join of `_build_tag_joins`).  SQL conventions modelled:
`LIKE '%x%'` is an ASCII-case-insensitive substring test, `COALESCE(c,'')`
is `Option.getD []`, a `LEFT JOIN` miss contributes one all-`NULL` row, and
`SELECT DISTINCT ... ORDER BY p.card_number` is modelled as a filter over
the `prints` table in table order (the ordering permutes rows and does not
affect membership).  `str.lower` is modelled on its ASCII fragment.
-/

open Hocg

/-- ASCII lowercase of a string. -/
def lowerStr (s : Str) : Str := s.map Char.toLower

/-- `_normalize_term(text)`: strip, lowercase, then delete spaces, tabs,
newlines, carriage returns, `#`, `_`, `-`, `/`, `|`, `,`, `.`. -/
def normalize_term (t : Str) : Str :=
  (lowerStr (pyTrim t)).filter (fun c =>
    ¬ (c = ' ' || c = '\t' || c = '\n' || c = '\r' || c = '#' || c = '_' ||
       c = '-' || c = '/' || c = '|' || c = ',' || c = '.'))

/-- `_unique_terms(values)`: strip each value, drop empties, keep the first
occurrence of each. -/
def uniqueGo (seen : List Str) : List Str → List Str
  | [] => []
  | v :: rest =>
    let v' := pyTrim v
    if v' = [] ∨ v' ∈ seen then uniqueGo seen rest
    else v' :: uniqueGo (v' :: seen) rest

def unique_terms (values : List Str) : List Str := uniqueGo [] values

/-- `_is_related_term(a, b)`. -/
def is_related_term (a b : Str) : Bool :=
  let na := normalize_term a
  let nb := normalize_term b
  if na = [] ∨ nb = [] then false
  else if na = nb then true
  else if na.length < 2 ∨ nb.length < 2 then false
  else subStr na nb || subStr nb na

/-- The delimiter class of `_TOKEN_SPLIT_RE` (`[\s,|/]+`, ASCII whitespace
model). -/
def tokenSplitChar (c : Char) : Bool :=
  pySpace c || c = ',' || c = '|' || c = '/'

/-- Prepend a character to the first piece. -/
def glueHead (c : Char) : List Str → List Str
  | [] => [[c]]
  | s :: ss => (c :: s) :: ss

mutual

/-- `re.split(r"[\s,|/]+", q)`: split on maximal delimiter runs, keeping
the (possibly empty) pieces at the edges. -/
def splitRuns : Str → List Str
  | [] => [[]]
  | c :: rest =>
    if tokenSplitChar c then [] :: splitRunsSkip rest
    else glueHead c (splitRuns rest)

/-- Skip the remainder of a delimiter run. -/
def splitRunsSkip : Str → List Str
  | [] => [[]]
  | c :: rest =>
    if tokenSplitChar c then splitRunsSkip rest
    else glueHead c (splitRuns rest)

end

/-- `TAG_ALIAS` of `app/constants.py`. -/
def TAG_ALIAS : List (Str × List Str) :=
  [("동물귀".data, ["인권없음".data]), ("인권없음".data, ["동물귀".data])]

/-- The `base_terms` of `_build_search_terms`: the query plus its
delimiter-split sub-terms of normalized length `≥ 3`, deduplicated. -/
def base_terms (q : Str) : List Str :=
  unique_terms
    (q :: (splitRuns q).filter (fun t => 3 ≤ (normalize_term t).length))

/-- `_build_search_terms(q)` (lines 78–93): the base terms, plus — for each
base term related to either side of an alias entry — that entry's key and
values, OR-added to (never replacing) the base terms. -/
def build_search_terms (q : Str) : List Str :=
  let base := base_terms q
  unique_terms
    (base ++
      base.flatMap (fun term =>
        TAG_ALIAS.flatMap (fun kv =>
          let aliasTerms := kv.1 :: kv.2
          if aliasTerms.any (fun al => is_related_term term al) then
            aliasTerms
          else [])))

/-- The SQL normalizer `_sql_normalize_expr` applied to a value:
`LOWER(COALESCE(c,''))` with `' '`, `'#'`, `'_'`, `'-'`, `'/'`, `','`
removed. -/
def sqlNorm (s : Str) : Str :=
  (lowerStr s).filter (fun c =>
    ¬ (c = ' ' || c = '#' || c = '_' || c = '-' || c = '/' || c = ','))

/-- `column LIKE '%pat%'` (ASCII-case-insensitive substring). -/
def likeC (pat s : Str) : Bool := subStr (lowerStr pat) (lowerStr s)

/-- `LOWER(a) = LOWER(b)` / `UPPER(a) = UPPER(b)`. -/
def eqCI (a b : Str) : Bool := lowerStr a = lowerStr b

/-- One row of `prints` as seen by the search engine. -/
structure PrintRec where
  printId : Nat
  cardNumber : Str
  nameJa : Option Str
deriving DecidableEq, Repr

/-- One row of `card_texts_ko`. -/
structure KoRec where
  printId : Nat
  name : Option Str
  effectText : Option Str
deriving DecidableEq, Repr

/-- One row of `tags`. -/
structure TagRec where
  tagId : Nat
  tag : Str
  normalized : Option Str
deriving DecidableEq, Repr

/-- The queried database. -/
structure SDB where
  prints : List PrintRec
  koTexts : List KoRec
  tags : List TagRec
  printTags : List (Nat × Nat)
deriving Repr

/-- `LEFT JOIN card_texts_ko ko ON ko.print_id = p.print_id`. -/
def koOf (db : SDB) (pid : Nat) : Option KoRec :=
  db.koTexts.find? (fun k => k.printId = pid)

/-- `LEFT JOIN print_tags pt ON pt.print_id = p.print_id LEFT JOIN tags t
ON t.tag_id = pt.tag_id`: the tag sides of the joined rows for one print
(`none` = the all-`NULL` row of a join miss). -/
def tagJoinRows (db : SDB) (pid : Nat) : List (Option TagRec) :=
  match db.printTags.filter (fun pt => pt.1 = pid) with
  | [] => [none]
  | pts => pts.map (fun pt => db.tags.find? (fun r => r.tagId = pt.2))

/-- The `WHERE` clause of `query_suggest`'s tag-join query, for one joined
row: the base substring conditions on `like = %q%`, the per-term tag
conditions, and the per-normalized-term normalized-column conditions. -/
def suggestCond (q : Str) (terms normTerms : List Str) (p : PrintRec)
    (ko : Option KoRec) (t : Option TagRec) : Bool :=
  let koName := (ko.bind (fun k => k.name)).getD []
  let koEff := (ko.bind (fun k => k.effectText)).getD []
  likeC q p.cardNumber || likeC q (p.nameJa.getD []) || likeC q koName ||
    likeC q koEff ||
    (match t with
     | some tr => likeC q tr.tag || likeC q (tr.normalized.getD [])
     | none => false) ||
    terms.any (fun term =>
      match t with
      | some tr => likeC term tr.tag || likeC term (tr.normalized.getD [])
      | none => likeC term []) ||
    normTerms.any (fun nt =>
      subStr nt (sqlNorm p.cardNumber) ||
        (match t with
         | some tr =>
           subStr nt (sqlNorm tr.tag) || subStr nt (sqlNorm (tr.normalized.getD []))
         | none => subStr nt (sqlNorm []) || subStr nt (sqlNorm [])) ||
        subStr nt (sqlNorm (p.nameJa.getD [])) || subStr nt (sqlNorm koName) ||
        subStr nt (sqlNorm koEff))

/-- Byte-order comparison on strings (`ORDER BY p.card_number`). -/
def strLe (a b : Str) : Bool :=
  match a, b with
  | [], _ => true
  | _ :: _, [] => false
  | c :: a', d :: b' => c.toNat < d.toNat || (c = d && strLe a' b')

/-- The `SELECT DISTINCT ... ORDER BY ... LIMIT` shell shared by the
queries: filter the prints on the existence of a satisfying joined row,
order by card number, apply the optional positive limit. -/
def runQuery (db : SDB) (cond : PrintRec → Option TagRec → Bool)
    (limit : Option Int) : List PrintRec :=
  let rows := db.prints.filter (fun p =>
    (tagJoinRows db p.printId).any (fun t => cond p t))
  let ordered := rows.mergeSort (fun a b => strLe a.cardNumber b.cardNumber)
  match limit with
  | some n => if n > 0 then ordered.take n.toNat else ordered
  | none => ordered

/-- `query_suggest(conn, q, limit)` with an explicit term list (the shared
body of the real query and the spec's no-alias variant). -/
def query_suggest_terms (db : SDB) (q : Str) (terms : List Str)
    (limit : Option Int) : List PrintRec :=
  let normTerms := unique_terms (terms.map normalize_term)
  runQuery db
    (fun p t => suggestCond q terms normTerms p (koOf db p.printId) t) limit

/-- `query_suggest(conn, q, limit)` (lines 152–208, the tag-join schema):
empty/whitespace queries return `[]` before any database access. -/
def query_suggest (db : SDB) (q : Str) (limit : Option Int) :
    List PrintRec :=
  let q' := pyTrim q
  if q' = [] then []
  else query_suggest_terms db q' (build_search_terms q') limit

/-- Modelled from the spec: `query_suggest` as it would behave *without*
alias expansion — the search terms are only the query and its
delimiter-split sub-terms (`base_terms`), no alias terms added.  Used as
the comparison point of the monotonicity claim. -/
def query_suggest_noalias (db : SDB) (q : Str) (limit : Option Int) :
    List PrintRec :=
  let q' := pyTrim q
  if q' = [] then []
  else query_suggest_terms db q' (base_terms q') limit

/-- The `WHERE` clause of `query_exact`'s tag-join query. -/
def exactCond (q nq : Str) (p : PrintRec) (ko : Option KoRec)
    (t : Option TagRec) : Bool :=
  let koName := (ko.bind (fun k => k.name)).getD []
  eqCI p.cardNumber q || eqCI (p.nameJa.getD []) q || eqCI koName q ||
    (match t with
     | some tr =>
       eqCI tr.tag q || eqCI (tr.normalized.getD []) q ||
         (nq ≠ [] && (sqlNorm tr.tag = nq || sqlNorm (tr.normalized.getD []) = nq))
     | none => false) ||
    (nq ≠ [] &&
      (sqlNorm p.cardNumber = nq || sqlNorm (p.nameJa.getD []) = nq ||
        sqlNorm koName = nq))

/-- `query_exact(conn, q, limit)` (lines 242–297, the tag-join schema):
empty/whitespace queries return `[]` before any database access. -/
def query_exact (db : SDB) (q : Str) (limit : Option Int) : List PrintRec :=
  let q' := pyTrim q
  if q' = [] then []
  else
    runQuery db
      (fun p t => exactCond q' (normalize_term q') p (koOf db p.printId) t)
      limit

end SearchDb

namespace NormProof

/-!
## Proof infrastructure for the normalizer

Predicates used to state and prove the (restricted) idempotence of the
scraper's normalizer: `Clean` captures what the line-splitting front end
guarantees, `GoodLabels` the restriction of the amended idempotence claim,
and `Canon` characterizes the shape of the normalizer's output — the key
invariant being how each output line interacts with the line that follows
it when the output is fed through the loop again.
-/

open Hocg

/-- Lines as produced by `cleanLines`: nonempty, stripped, newline-free. -/
def Clean (ls : List Str) : Prop :=
  ∀ l ∈ ls, l ≠ [] ∧ pyTrim l = l ∧ '\n' ∉ l

/-- The restriction of the amended idempotence claim: no line normalizes to
the `収録商品` label (whose six-line keyword look-ahead can change meaning
once lines have been merged) and no line normalizes to the empty string
(a colon/whitespace-only line merged as a value makes the merged line
itself normalize back to its bare label). -/
def GoodLabels (ls : List Str) : Prop :=
  ∀ l ∈ ls, normLabel l ≠ "収録商品".data ∧ normLabel l ≠ []

instance (ls : List Str) : Decidable (GoodLabels ls) := by
  unfold GoodLabels; infer_instance

/-- The first line (if any) is not a hashtag line. -/
def headNotHash : List Str → Prop
  | [] => True
  | l :: _ => hashLine l = false

/-- The first line (if any) is a label line. -/
def headLabel : List Str → Prop
  | [] => True
  | l :: _ => HocgTool.isLabelLine l = true

/-- The canonical shape of the scraper normalizer's output (with
`remove_private=False`, on `GoodLabels` input): a `タグ` block is the label
followed by one stripped joined hashtag line and then a non-hashtag line; a
merge label stands alone only in front of a label line (or at the end);
every other line neither merges, nor collects hashtags, nor triggers the
`収録商品` look-ahead, and is its own normalized label whenever that label
is recognized.  The loop is the identity on lists of this shape. -/
inductive Canon : List Str → Prop
  | nil : Canon []
  | tagB (J : Str) (rest : List Str) (hJ : hashLine J = true)
      (hJt : pyTrim J = J) (hr : headNotHash rest) (hc : Canon rest) :
      Canon ("タグ".data :: J :: rest)
  | mergeAlone (L : Str) (rest : List Str) (hL : L ∈ HocgTool.mergeLabels)
      (hr : headLabel rest) (hc : Canon rest) : Canon (L :: rest)
  | plain (l : Str) (rest : List Str)
      (h1 : normLabel l ∉ HocgTool.mergeLabels)
      (h2 : normLabel l ≠ "収録商品".data)
      (h3 : normLabel l = "タグ".data → headNotHash rest)
      (h4 : normLabel l ∈ HocgTool.allLabels → normLabel l = l)
      (hc : Canon rest) : Canon (l :: rest)

end NormProof

/-!
# Theorems

The remainder of the file settles the specification's claims against the
embedded definitions: first shared helper lemmas, then one theorem per
claim (with a witness for every theorem that carries a hypothesis, and a
counterexample for every corrected claim).
-/

/-- C2 counterexample: on the end-to-end scenario input, neither
normalizer's output contains the claimed line `タグ #Tag1 #Tag2` at all —
the tag *label* and the joined hashtag line are emitted as two separate
lines (`out.append("タグ")` followed by `out.append(" ".join(tags))`), in
both the scraper's and the refine pass's normalizer. -/
theorem C2_counterexample :
    (Hocg.cleanLines (HocgTool.normalize_raw_text false
        "hBP04-002\nカードタイプ\nホロメン\nタグ\n#Tag1\n#Tag2").data).count
        "タグ #Tag1 #Tag2".data = 0 ∧
    (Hocg.cleanLines (Refine.normalize_raw_text
        "hBP04-002\nカードタイプ\nホロメン\nタグ\n#Tag1\n#Tag2").data).count
        "タグ #Tag1 #Tag2".data = 0 := by decide

/-- C2 (amended): on the scenario input, the output of both normalizers
contains the single merged line `カードタイプ ホロメン`, and the two
hashtag lines are collected onto the single joined line `#Tag1 #Tag2`
placed immediately after the stand-alone label line `タグ` (rather than
onto one line together with the label): the normalized line list is
exactly `hBP04-002 / カードタイプ ホロメン / タグ / #Tag1 #Tag2`. -/
theorem C2_type_merged_and_tags_joined :
    Hocg.cleanLines (HocgTool.normalize_raw_text false
        "hBP04-002\nカードタイプ\nホロメン\nタグ\n#Tag1\n#Tag2").data =
      ["hBP04-002".data, "カードタイプ ホロメン".data, "タグ".data,
        "#Tag1 #Tag2".data] ∧
    Hocg.cleanLines (Refine.normalize_raw_text
        "hBP04-002\nカードタイプ\nホロメン\nタグ\n#Tag1\n#Tag2").data =
      ["hBP04-002".data, "カードタイプ ホロメン".data, "タグ".data,
        "#Tag1 #Tag2".data] := by decide

/-- C10: both search entry points strip the query and return the empty
list when nothing remains, for every database and limit. -/
theorem C10_blank_query_returns_empty (db : SearchDb.SDB) (q : Hocg.Str)
    (limit : Option Int) (h : Hocg.pyTrim q = []) :
    SearchDb.query_suggest db q limit = [] ∧
    SearchDb.query_exact db q limit = [] := by
  constructor
  · unfold SearchDb.query_suggest
    simp [h]
  · unfold SearchDb.query_exact
    simp [h]

/-- Witness for C10 at a whitespace-only query. -/
theorem C10_blank_query_returns_empty_witness :
    Hocg.pyTrim " \t ".data = [] ∧
    (SearchDb.query_suggest ⟨[⟨1, "hBP04-002".data, none⟩], [], [], []⟩
        " \t ".data none = [] ∧
      SearchDb.query_exact ⟨[⟨1, "hBP04-002".data, none⟩], [], [], []⟩
        " \t ".data none = []) :=
  ⟨by decide,
    C10_blank_query_returns_empty ⟨[⟨1, "hBP04-002".data, none⟩], [], [], []⟩
      " \t ".data none (by decide)⟩

/-- C3 counterexample: a page text in which neither the labeled
`カードナンバー` field (step 1) nor the whole-text pattern search (step 2)
yields a card number is *skipped* (`parse_detail` returns `None`) even
though the caller supplied the non-empty expected number `hBP04-002` —
the claimed step-3 fallback does not happen. -/
theorem C3_counterexample :
    HocgTool.parse_detail_card "ただのメニューページ\n本文なし".data
        "hBP04-002".data = none ∧
    "hBP04-002".data ≠ [] := by decide

/-- C3 (amended): when steps 1 and 2 of the card-number resolution both
fail, `parse_detail` skips the page (returns `None`) regardless of the
caller-supplied expected number — the `card_no or fallback_card_no`
fallback in the record constructor is unreachable. -/
theorem C3_skip_when_both_steps_fail (rawFull fallback : Hocg.Str)
    (h1 : HocgTool.cardnoSearch
        (HocgTool.extractFieldByLabel rawFull "カードナンバー".data) = none)
    (h2 : HocgTool.cardnoSearch rawFull = none) :
    HocgTool.parse_detail_card rawFull fallback = none := by
  unfold HocgTool.parse_detail_card
  by_cases hcn : HocgTool.extractFieldByLabel rawFull "カードナンバー".data = []
  · simp [hcn, h2]
  · simp [hcn, h1, h2]

/-- Witness for C3 at a concrete page text and fallback number. -/
theorem C3_skip_when_both_steps_fail_witness :
    (HocgTool.cardnoSearch
        (HocgTool.extractFieldByLabel "商品ページです".data
          "カードナンバー".data) = none ∧
      HocgTool.cardnoSearch "商品ページです".data = none) ∧
    HocgTool.parse_detail_card "商品ページです".data "hSD05-009".data =
      none :=
  ⟨⟨by decide, by decide⟩,
    C3_skip_when_both_steps_fail "商品ページです".data "hSD05-009".data
      (by decide) (by decide)⟩

namespace Crawler

/-- The crawl-state invariant: the fetched detail ids are pairwise distinct
and all recorded as seen. -/
theorem handleItems_inv (mc : Nat) (its : List Item) (st : CrawlSt)
    (h1 : st.fetched.Nodup) (h2 : ∀ x ∈ st.fetched, x ∈ st.seen) :
    (handleItems mc st its).1.fetched.Nodup ∧
      (∀ x ∈ (handleItems mc st its).1.fetched,
        x ∈ (handleItems mc st its).1.seen) := by
  induction its generalizing st with
  | nil => exact ⟨h1, h2⟩
  | cons it rest ih =>
    by_cases hseen : it.id ∈ st.seen
    · simpa [handleItems, hseen] using ih st h1 h2
    · have hfail : it.id ∉ st.fetched := fun hx => hseen (h2 _ hx)
      have h1' : (st.fetched ++ [it.id]).Nodup := by
        simp [List.nodup_append, h1, hfail]
      have h2' : ∀ x, x ∈ st.fetched ∨ x = it.id → x = it.id ∨ x ∈ st.seen := by
        intro x hx
        rcases hx with hx | hx
        · exact Or.inr (h2 _ hx)
        · exact Or.inl hx
      have h2'' : ∀ x ∈ st.fetched ++ [it.id], x ∈ it.id :: st.seen := by
        intro x hx
        rcases List.mem_append.1 hx with hx | hx
        · exact List.mem_cons_of_mem _ (h2 _ hx)
        · simp at hx; simp [hx]
      by_cases hok : it.ok
      · by_cases hstop : mc ≠ 0 ∧ mc ≤ st.total + 1
        · simpa [handleItems, hseen, hok, hstop] using ⟨h1', h2'⟩
        · simpa [handleItems, hseen, hok, hstop] using
            ih ⟨it.id :: st.seen, st.fetched ++ [it.id], st.total + 1⟩ h1' h2''
      · simpa [handleItems, hseen, hok] using
          ih ⟨it.id :: st.seen, st.fetched ++ [it.id], st.total⟩ h1' h2''

/-- The invariant is preserved across the page loop. -/
theorem scrapeGo_inv (pages : Nat → List Item) (mc : Nat) (rem : Nat)
    (st : CrawlSt) (page : Nat)
    (h1 : st.fetched.Nodup) (h2 : ∀ x ∈ st.fetched, x ∈ st.seen) :
    (scrapeGo pages mc st page rem).1.fetched.Nodup ∧
      (∀ x ∈ (scrapeGo pages mc st page rem).1.fetched,
        x ∈ (scrapeGo pages mc st page rem).1.seen) := by
  induction rem generalizing st page with
  | zero => exact ⟨h1, h2⟩
  | succ rem ih =>
    have h := handleItems_inv mc (pages page) st h1 h2
    by_cases hstop : (handleItems mc st (pages page)).2.2
    · simpa [scrapeGo, hstop] using h
    · by_cases hzero : (handleItems mc st (pages page)).2.1 = 0
      · simpa [scrapeGo, hstop, hzero] using h
      · simpa [scrapeGo, hstop, hzero] using
          ih (handleItems mc st (pages page)).1 (page + 1) h.1 h.2

/-- The invariant is preserved across the expansion loop. -/
theorem cmd_scrapeGo_inv (mp mc : Nat) (exps : List (Nat → List Item))
    (st : CrawlSt)
    (h1 : st.fetched.Nodup) (h2 : ∀ x ∈ st.fetched, x ∈ st.seen) :
    (cmd_scrapeGo mp mc st exps).fetched.Nodup := by
  induction exps generalizing st with
  | nil => exact h1
  | cons pages rest ih =>
    by_cases hcap : mc ≠ 0 ∧ mc ≤ st.total
    · simpa [cmd_scrapeGo, hcap] using h1
    · have h := scrapeGo_inv pages mc mp st 1 h1 h2
      by_cases hstop : (scrapeGo pages mc st 1 mp).2.2
      · simpa [cmd_scrapeGo, hcap, hstop, scrape_expansion] using h.1
      · simpa [cmd_scrapeGo, hcap, hstop, scrape_expansion] using
          ih (scrapeGo pages mc st 1 mp).1 h.1 h.2

end Crawler

/-- C6: across a whole run — any sequence of set-code filters, each with
any page sequence whose extracted items may repeat detail ids — the
crawler fetches each distinct detail id at most once: its chronological
fetch list has no duplicates, because the per-run seen-ids set is checked
and updated before any fetch. -/
theorem C6_at_most_one_fetch_per_detail_id
    (expansions : List (Nat → List Crawler.Item)) (maxPages maxCards : Nat) :
    (Crawler.cmd_scrape expansions maxPages maxCards).fetched.Nodup :=
  Crawler.cmd_scrapeGo_inv maxPages maxCards expansions ⟨[], [], 0⟩
    List.nodup_nil (by intro x hx; cases hx)

namespace Crawler

/-- A page yielding zero new items never sets the `max_cards` stop flag. -/
theorem handleItems_zero_no_stop (mc : Nat) (its : List Item) (st : CrawlSt)
    (h : (handleItems mc st its).2.1 = 0) :
    (handleItems mc st its).2.2 = false := by
  induction its generalizing st with
  | nil => simp [handleItems]
  | cons it rest ih =>
    by_cases hseen : it.id ∈ st.seen
    · rw [handleItems] at h ⊢
      simpa [hseen] using ih st (by simpa [hseen] using h)
    · by_cases hok : it.ok
      · by_cases hstop : mc ≠ 0 ∧ mc ≤ st.total + 1
        · simp [handleItems, hseen, hok, hstop] at h
        · simp [handleItems, hseen, hok, hstop] at h
      · simp [handleItems, hseen, hok] at h

/-- The page loop visits at most `rem` pages. -/
theorem scrapeGo_len (pages : Nat → List Item) (mc : Nat) (rem : Nat)
    (st : CrawlSt) (page : Nat) :
    (scrapeGo pages mc st page rem).2.1.length ≤ rem := by
  induction rem generalizing st page with
  | zero => simp [scrapeGo]
  | succ rem ih =>
    by_cases hstop : (handleItems mc st (pages page)).2.2
    · simp [scrapeGo, hstop]
    · by_cases hzero : (handleItems mc st (pages page)).2.1 = 0
      · simp [scrapeGo, hstop, hzero]
      · simpa [scrapeGo, hstop, hzero, Nat.succ_le_succ_iff] using
          ih (handleItems mc st (pages page)).1 (page + 1)

end Crawler

/-- C7: pagination terminates — the page loop for a set code never visits
more than `max_pages` pages, and from any crawl state, as soon as a fetched
list page yields zero new items the loop stops with that page (no further
page is fetched). -/
theorem C7_pagination_terminates (pages : Nat → List Crawler.Item)
    (maxPages maxCards : Nat) (st : Crawler.CrawlSt) (page rem : Nat)
    (hzero : (Crawler.handleItems maxCards st (pages page)).2.1 = 0) :
    (Crawler.scrape_expansion pages maxPages maxCards st).2.1.length ≤
        maxPages ∧
      (Crawler.scrapeGo pages maxCards st page (rem + 1)).2.1 = [page] := by
  refine ⟨Crawler.scrapeGo_len pages maxCards maxPages st 1, ?_⟩
  have hstop := Crawler.handleItems_zero_no_stop maxCards (pages page) st hzero
  simp [Crawler.scrapeGo, hstop, hzero]

/-- Witness for C7: a run over empty list pages stops after its first
page. -/
theorem C7_pagination_terminates_witness :
    ((Crawler.handleItems 0 ⟨[], [], 0⟩ ((fun _ => []) 1)).2.1 = 0) ∧
      ((Crawler.scrape_expansion (fun _ => []) 5 0 ⟨[], [], 0⟩).2.1.length ≤
          5 ∧
        (Crawler.scrapeGo (fun _ => []) 0 ⟨[], [], 0⟩ 1 (4 + 1)).2.1 = [1]) :=
  ⟨by decide,
    C7_pagination_terminates (fun _ => []) 5 0 ⟨[], [], 0⟩ 1 4 (by decide)⟩

namespace Store

/-- After an upsert, the first `prints` row with the stripped card number
is the freshly written one: identity from the pre-existing row when there
was one, all derived fields (including the image hash and `updated_at`)
rewritten. -/
theorem upsert_print_find (db : PrintsDB) (cn : Hocg.Str) (d : Detail)
    (now : Hocg.Str) :
    (upsert_print db cn d now).1.rows.find?
        (fun r => r.cardNumber = Hocg.pyTrim cn) =
      some
        { printId :=
            match db.rows.find? (fun r => r.cardNumber = Hocg.pyTrim cn) with
            | some r0 => r0.printId
            | none => db.nextPrintId
          cardNumber := Hocg.pyTrim cn
          setCode := d.setCode.getD []
          rarity := d.rarity.getD []
          color := d.color.getD []
          cardType := d.cardType.getD []
          product := d.product.getD []
          nameJa := d.name.getD []
          imageUrl := d.imageUrl.getD []
          imageSha256 :=
            if d.imageUrl.getD [] ≠ []
            then sha256_text (d.imageUrl.getD []) else []
          detailId := d.detailId
          detailUrl := d.detailUrl.getD []
          updatedAt := now } := by
  unfold upsert_print
  cases h : db.rows.find? (fun r => r.cardNumber = Hocg.pyTrim cn) with
  | some r0 =>
    simp only [h]
    rw [List.find?_map]
    have hpt :
        (fun r : PrintRow => decide (r.cardNumber = Hocg.pyTrim cn)) ∘
            (fun r : PrintRow =>
              if r.cardNumber = Hocg.pyTrim cn then
                { r with
                    cardNumber := Hocg.pyTrim cn
                    setCode := d.setCode.getD []
                    rarity := d.rarity.getD []
                    color := d.color.getD []
                    cardType := d.cardType.getD []
                    product := d.product.getD []
                    nameJa := d.name.getD []
                    imageUrl := d.imageUrl.getD []
                    imageSha256 :=
                      if d.imageUrl.getD [] ≠ []
                      then sha256_text (d.imageUrl.getD []) else []
                    detailId := d.detailId
                    detailUrl := d.detailUrl.getD []
                    updatedAt := now }
              else r) =
          fun r : PrintRow => decide (r.cardNumber = Hocg.pyTrim cn) := by
      funext r
      by_cases hr : r.cardNumber = Hocg.pyTrim cn <;> simp [hr]
    rw [hpt, h]
    have hr0 : r0.cardNumber = Hocg.pyTrim cn := by
      simpa using List.find?_some h
    simp [hr0]
  | none =>
    simp only [h]
    rw [List.find?_append, h]
    simp

end Store

namespace Store

/-- The returned id is the `print_id` of the row the card number resolves
to after the write (the re-`SELECT` of `upsert_print`). -/
theorem upsert_print_snd (db : PrintsDB) (cn : Hocg.Str) (d : Detail)
    (now : Hocg.Str) :
    (upsert_print db cn d now).2 =
      ((upsert_print db cn d now).1.rows.find?
          (fun r => r.cardNumber = Hocg.pyTrim cn)).map
        (fun r => r.printId) := by
  unfold upsert_print
  cases h : db.rows.find? (fun r => r.cardNumber = Hocg.pyTrim cn) <;>
    simp [h]

/-- An upsert found by card number leaves the row count unchanged. -/
theorem upsert_print_len_of_found (db : PrintsDB) (cn : Hocg.Str)
    (d : Detail) (now : Hocg.Str)
    (h : (db.rows.find? (fun r => r.cardNumber = Hocg.pyTrim cn)).isSome) :
    (upsert_print db cn d now).1.rows.length = db.rows.length := by
  unfold upsert_print
  cases hf : db.rows.find? (fun r => r.cardNumber = Hocg.pyTrim cn) with
  | some r0 => simp [hf]
  | none => rw [hf] at h; simp at h

/-- Upserts preserve well-formedness of the `prints` table. -/
theorem upsert_print_WF (db : PrintsDB) (cn : Hocg.Str) (d : Detail)
    (now : Hocg.Str) (h : db.WF) : (upsert_print db cn d now).1.WF := by
  obtain ⟨hnd, hid⟩ := h
  unfold upsert_print
  cases hf : db.rows.find? (fun r => r.cardNumber = Hocg.pyTrim cn) with
  | some r0 =>
    simp only [hf]
    refine ⟨?_, ?_⟩
    · have : (db.rows.map (fun r =>
          if r.cardNumber = Hocg.pyTrim cn then
            { r with
                cardNumber := Hocg.pyTrim cn
                setCode := d.setCode.getD []
                rarity := d.rarity.getD []
                color := d.color.getD []
                cardType := d.cardType.getD []
                product := d.product.getD []
                nameJa := d.name.getD []
                imageUrl := d.imageUrl.getD []
                imageSha256 :=
                  if d.imageUrl.getD [] ≠ []
                  then sha256_text (d.imageUrl.getD []) else []
                detailId := d.detailId
                detailUrl := d.detailUrl.getD []
                updatedAt := now }
          else r)).map (fun r => r.cardNumber) =
          db.rows.map (fun r => r.cardNumber) := by
        rw [List.map_map]
        refine List.map_congr_left ?_
        intro r _
        by_cases hr : r.cardNumber = Hocg.pyTrim cn <;> simp [hr]
      rw [this]
      exact hnd
    · intro r hr
      simp only [List.mem_map] at hr
      obtain ⟨x, hx, hxr⟩ := hr
      have : r.printId = x.printId := by
        subst hxr
        by_cases hxc : x.cardNumber = Hocg.pyTrim cn <;> simp [hxc]
      simpa [this] using hid x hx
  | none =>
    simp only [hf]
    have hnotin : ∀ x ∈ db.rows, ¬ x.cardNumber = Hocg.pyTrim cn := by
      intro x hx
      have := List.find?_eq_none.1 hf x hx
      simpa using this
    refine ⟨?_, ?_⟩
    · rw [List.map_append]
      refine List.Nodup.append hnd (by simp) ?_
      intro a ha hb
      simp only [List.mem_map] at ha hb
      obtain ⟨x, hx, hxa⟩ := ha
      simp at hb
      exact hnotin x hx (hxa.trans hb.symm)
    · intro r hr
      rcases List.mem_append.1 hr with hr | hr
      · exact Nat.lt_trans (hid r hr) (Nat.lt_succ_self _)
      · simp at hr
        subst hr
        simp [Nat.lt_succ_self]

/-- With a well-formed table, the rows matching a present card number are
exactly one. -/
theorem filter_card_one {l : List PrintRow} {cn : Hocg.Str} {r0 : PrintRow}
    (hnd : (l.map (fun r => r.cardNumber)).Nodup)
    (hex : l.find? (fun r => r.cardNumber = cn) = some r0) :
    (l.filter (fun r => r.cardNumber = cn)).length = 1 := by
  induction l with
  | nil => simp at hex
  | cons a t ih =>
    by_cases ha : a.cardNumber = cn
    · have hnil : t.filter (fun r => r.cardNumber = cn) = [] := by
        refine List.filter_eq_nil_iff.2 ?_
        intro x hx hc
        have hxc : x.cardNumber = cn := by simpa using hc
        have hmem : a.cardNumber ∈ t.map (fun r => r.cardNumber) := by
          rw [ha, ← hxc]
          exact List.mem_map_of_mem _ hx
        exact (List.nodup_cons.1 (by simpa using hnd)).1 hmem
      simp [ha, hnil]
    · rw [List.find?_cons_of_neg _ (by simpa using ha)] at hex
      have := ih (List.nodup_cons.1 (by simpa using hnd)).2 hex
      simpa [ha] using this

end Store

/-- C5: upserting the same `card_number` twice is idempotent and
identity-stable — for a well-formed table, the second call returns the
same `print_id` as the first, there is exactly one row for that card
number, no extra row is inserted, and `updated_at` is rewritten to the
second timestamp. -/
theorem C5_upsert_idempotent_identity_stable (db : Store.PrintsDB)
    (cn : Hocg.Str) (d : Store.Detail) (now1 now2 : Hocg.Str)
    (h : db.WF) :
    (Store.upsert_print (Store.upsert_print db cn d now1).1 cn d now2).2 =
        (Store.upsert_print db cn d now1).2 ∧
      (Store.upsert_print db cn d now1).2.isSome = true ∧
      ((Store.upsert_print (Store.upsert_print db cn d now1).1 cn d
            now2).1.rows.filter
          (fun r => r.cardNumber = Hocg.pyTrim cn)).length = 1 ∧
      (Store.upsert_print (Store.upsert_print db cn d now1).1 cn d
          now2).1.rows.length =
        (Store.upsert_print db cn d now1).1.rows.length ∧
      ((Store.upsert_print (Store.upsert_print db cn d now1).1 cn d
            now2).1.rows.find?
          (fun r => r.cardNumber = Hocg.pyTrim cn)).map
          (fun r => r.updatedAt) = some now2 := by
  have hf1 := Store.upsert_print_find db cn d now1
  have hf2 :=
    Store.upsert_print_find (Store.upsert_print db cn d now1).1 cn d now2
  have hwf2 :=
    Store.upsert_print_WF (Store.upsert_print db cn d now1).1 cn d now2
      (Store.upsert_print_WF db cn d now1 h)
  refine ⟨?_, ?_, ?_, ?_, ?_⟩
  · rw [Store.upsert_print_snd, Store.upsert_print_snd, hf1, hf2, hf1]
    rfl
  · rw [Store.upsert_print_snd, hf1]
    rfl
  · exact Store.filter_card_one hwf2.1 hf2
  · exact Store.upsert_print_len_of_found _ cn d now2 (by rw [hf1]; rfl)
  · rw [hf2, hf1]
    rfl

/-- Witness for C5 at a concrete empty database. -/
theorem C5_upsert_idempotent_identity_stable_witness :
    (Store.PrintsDB.WF ⟨[], 0⟩) ∧
      ((Store.upsert_print
            (Store.upsert_print ⟨[], 0⟩ "hBP04-002".data {} "t1".data).1
            "hBP04-002".data {} "t2".data).2 =
          (Store.upsert_print ⟨[], 0⟩ "hBP04-002".data {} "t1".data).2 ∧
        (Store.upsert_print ⟨[], 0⟩ "hBP04-002".data {} "t1".data).2.isSome =
          true ∧
        ((Store.upsert_print
              (Store.upsert_print ⟨[], 0⟩ "hBP04-002".data {} "t1".data).1
              "hBP04-002".data {} "t2".data).1.rows.filter
            (fun r => r.cardNumber = Hocg.pyTrim "hBP04-002".data)).length =
          1 ∧
        (Store.upsert_print
            (Store.upsert_print ⟨[], 0⟩ "hBP04-002".data {} "t1".data).1
            "hBP04-002".data {} "t2".data).1.rows.length =
          (Store.upsert_print ⟨[], 0⟩ "hBP04-002".data {}
              "t1".data).1.rows.length ∧
        ((Store.upsert_print
              (Store.upsert_print ⟨[], 0⟩ "hBP04-002".data {} "t1".data).1
              "hBP04-002".data {} "t2".data).1.rows.find?
            (fun r => r.cardNumber = Hocg.pyTrim "hBP04-002".data)).map
            (fun r => r.updatedAt) = some "t2".data) :=
  ⟨by decide,
    C5_upsert_idempotent_identity_stable ⟨[], 0⟩ "hBP04-002".data {}
      "t1".data "t2".data (by decide)⟩

namespace Store

/-- `upsert_tag` never touches `print_tags`. -/
theorem upsert_tag_printTags (db : TagDB) (t : Hocg.Str) :
    (upsert_tag db t).1.printTags = db.printTags := by
  unfold upsert_tag
  cases h : findTag db.tags t <;> simp [h]

/-- `upsert_tag` makes the tag resolve to the returned id. -/
theorem upsert_tag_resolves (db : TagDB) (t : Hocg.Str) :
    tagIdOf (upsert_tag db t).1 t = some (upsert_tag db t).2 := by
  unfold upsert_tag
  cases h : findTag db.tags t with
  | some r =>
    simp only [h]
    unfold tagIdOf findTag
    rw [List.find?_map]
    have hpt :
        (fun r : TagRow => decide (r.tag = t)) ∘
            (fun row : TagRow =>
              if row.tag = t then { row with normalized := normalize_tag t }
              else row) =
          fun r : TagRow => decide (r.tag = t) := by
      funext row
      by_cases hr : row.tag = t <;> simp [hr]
    rw [hpt]
    unfold findTag at h
    rw [h]
    have : r.tag = t := by simpa using List.find?_some h
    simp [this]
  | none =>
    simp only [h]
    unfold tagIdOf findTag
    unfold findTag at h
    rw [List.find?_append, h]
    simp

/-- `upsert_tag` never changes the id an existing tag name resolves to. -/
theorem upsert_tag_stable (db : TagDB) (t s : Hocg.Str) (i : Nat)
    (h : tagIdOf db s = some i) :
    tagIdOf (upsert_tag db t).1 s = some i := by
  unfold tagIdOf findTag at h ⊢
  obtain ⟨rs, hrs, hid⟩ : ∃ rs, db.tags.find? (fun r => r.tag = s) = some rs ∧
      rs.tagId = i := by
    cases hf : db.tags.find? (fun r => r.tag = s) with
    | some rs => rw [hf] at h; exact ⟨rs, rfl, by simpa using h⟩
    | none => rw [hf] at h; simp at h
  unfold upsert_tag
  cases hft : findTag db.tags t with
  | some r =>
    simp only [hft]
    rw [List.find?_map]
    have hpt :
        (fun r : TagRow => decide (r.tag = s)) ∘
            (fun row : TagRow =>
              if row.tag = t then { row with normalized := normalize_tag t }
              else row) =
          fun r : TagRow => decide (r.tag = s) := by
      funext row
      by_cases hr : row.tag = t <;> simp [hr]
    rw [hpt, hrs]
    by_cases hrt : rs.tag = t <;> simp [hrt, hid]
  | none =>
    simp only [hft]
    rw [List.find?_append, hrs]
    simp [hid]

/-- `upsert_tag` preserves well-formedness. -/
theorem upsert_tag_WF (db : TagDB) (t : Hocg.Str) (h : db.WF) :
    (upsert_tag db t).1.WF := by
  obtain ⟨hnd, hid⟩ := h
  unfold upsert_tag
  cases hft : findTag db.tags t with
  | some r =>
    simp only [hft]
    refine ⟨?_, ?_⟩
    · have : (db.tags.map (fun row : TagRow =>
            if row.tag = t then { row with normalized := normalize_tag t }
            else row)).map (fun r => r.tag) =
          db.tags.map (fun r => r.tag) := by
        rw [List.map_map]
        refine List.map_congr_left ?_
        intro row _
        by_cases hr : row.tag = t <;> simp [hr]
      rw [this]
      exact hnd
    · intro r' hr'
      simp only [List.mem_map] at hr'
      obtain ⟨x, hx, hxr⟩ := hr'
      have : r'.tagId = x.tagId := by
        subst hxr
        by_cases hxc : x.tag = t <;> simp [hxc]
      simpa [this] using hid x hx
  | none =>
    simp only [hft]
    have hnotin : ∀ x ∈ db.tags, ¬ x.tag = t := by
      intro x hx
      have := List.find?_eq_none.1 hft x hx
      simpa using this
    refine ⟨?_, ?_⟩
    · rw [List.map_append]
      refine List.Nodup.append hnd (by simp) ?_
      intro a ha hb
      simp only [List.mem_map] at ha
      obtain ⟨x, hx, hxa⟩ := ha
      simp at hb
      exact hnotin x hx (hxa.trans hb)
    · intro r hr
      rcases List.mem_append.1 hr with hr | hr
      · exact Nat.lt_trans (hid r hr) (Nat.lt_succ_self _)
      · simp at hr
        subst hr
        simp [Nat.lt_succ_self]

theorem replace_print_tags_eq_foldl (db : TagDB) (pid : Nat)
    (ts : List Hocg.Str) :
    replace_print_tags db pid ts =
      ts.foldl (replaceStep pid)
        { db with
            printTags := db.printTags.filter (fun pt => pt.1 ≠ pid) } := rfl

/-- The step never touches the `tags` table beyond the upsert. -/
theorem replaceStep_tags (pid : Nat) (acc : TagDB) (t : Hocg.Str) :
    (replaceStep pid acc t).tags = (upsert_tag acc t).1.tags := by
  unfold replaceStep
  by_cases hmem : (pid, (upsert_tag acc t).2) ∈ (upsert_tag acc t).1.printTags <;>
    simp [hmem]

/-- Membership of the step's `print_tags`. -/
theorem replaceStep_printTags_mem (pid : Nat) (acc : TagDB) (t : Hocg.Str)
    (q tid : Nat) :
    ((q, tid) ∈ (replaceStep pid acc t).printTags ↔
      (q, tid) ∈ acc.printTags ∨ (q = pid ∧ tid = (upsert_tag acc t).2)) := by
  simp only [replaceStep]
  by_cases hmem : (pid, (upsert_tag acc t).2) ∈ (upsert_tag acc t).1.printTags
  · rw [if_pos hmem, upsert_tag_printTags]
    rw [upsert_tag_printTags] at hmem
    constructor
    · exact fun h => Or.inl h
    · rintro (h | ⟨rfl, rfl⟩)
      · exact h
      · exact hmem
  · rw [if_neg hmem]
    rw [upsert_tag_printTags] at hmem
    simp only [List.mem_append, upsert_tag_printTags]
    constructor
    · rintro (h | h)
      · exact Or.inl h
      · simp at h
        exact Or.inr ⟨h.1, h.2⟩
    · rintro (h | ⟨rfl, rfl⟩)
      · exact Or.inl h
      · exact Or.inr (by simp)

/-- The invariant of the `replace_print_tags` fold: the print's rows are
exactly the (current) ids of the processed tags plus whatever was there
before, other prints' rows are untouched, resolution of existing names is
stable, and well-formedness is preserved. -/
theorem replace_go (pid : Nat) (ts : List Hocg.Str) :
    ∀ db : TagDB, db.WF →
      (ts.foldl (replaceStep pid) db).WF ∧
      (∀ tid, ((pid, tid) ∈ (ts.foldl (replaceStep pid) db).printTags ↔
        (pid, tid) ∈ db.printTags ∨
          ∃ t ∈ ts, tagIdOf (ts.foldl (replaceStep pid) db) t = some tid)) ∧
      (∀ q tid, q ≠ pid →
        ((q, tid) ∈ (ts.foldl (replaceStep pid) db).printTags ↔
          (q, tid) ∈ db.printTags)) ∧
      (∀ s i, tagIdOf db s = some i →
        tagIdOf (ts.foldl (replaceStep pid) db) s = some i) := by
  induction ts with
  | nil =>
    intro db h
    exact ⟨h, fun tid => by simp, fun q tid _ => Iff.rfl, fun s i hi => hi⟩
  | cons t ts ih =>
    intro db h
    have hstepWF : (replaceStep pid db t).WF := by
      have := upsert_tag_WF db t h
      unfold TagDB.WF at this ⊢
      rw [replaceStep_tags]
      unfold replaceStep
      by_cases hmem :
          (pid, (upsert_tag db t).2) ∈ (upsert_tag db t).1.printTags <;>
        simpa [hmem] using this
    obtain ⟨ihWF, ihMem, ihOther, ihStable⟩ := ih (replaceStep pid db t) hstepWF
    have hstepTag : tagIdOf (replaceStep pid db t) t =
        some (upsert_tag db t).2 := by
      have := upsert_tag_resolves db t
      unfold tagIdOf findTag at this ⊢
      rw [replaceStep_tags]
      exact this
    have hfinalTag : tagIdOf (ts.foldl (replaceStep pid) (replaceStep pid db t)) t =
        some (upsert_tag db t).2 := ihStable t _ hstepTag
    refine ⟨by simpa using ihWF, ?_, ?_, ?_⟩
    · intro tid
      rw [List.foldl_cons, ihMem tid, replaceStep_printTags_mem]
      constructor
      · rintro (((h | ⟨_, rfl⟩) | h))
        · exact Or.inl h
        · exact Or.inr ⟨t, by simp, hfinalTag⟩
        · obtain ⟨s, hs, hids⟩ := h
          exact Or.inr ⟨s, by simp [hs], hids⟩
      · rintro (h | ⟨s, hs, hids⟩)
        · exact Or.inl (Or.inl h)
        · rcases List.mem_cons.1 hs with hst | hs
          · have hx := hst ▸ hids
            have : tid = (upsert_tag db t).2 := by
              have := hfinalTag.symm.trans hx
              simpa using this.symm
            exact Or.inl (Or.inr ⟨rfl, this⟩)
          · exact Or.inr ⟨s, hs, hids⟩
    · intro q tid hq
      rw [List.foldl_cons, ihOther q tid hq, replaceStep_printTags_mem]
      simp [hq]
    · intro s i hi
      rw [List.foldl_cons]
      refine ihStable s i ?_
      have := upsert_tag_stable db t s i hi
      unfold tagIdOf findTag at this ⊢
      rw [replaceStep_tags]
      exact this

end Store

/-- C4: tag replacement is a full snapshot — after
`replace_print_tags(conn, id, ts)` the `print_tags` rows of `id` are
exactly the (deduplicated) tags of `ts` resolved through the `tags`
table, rows of other prints are untouched, and the tables stay
well-formed.  In particular `replace(id, [])` leaves no row for `id`, and
replacing `["#a"]` then `["#b"]` leaves `id` associated with `#b` only. -/
theorem C4_replace_tags_full_snapshot (db : Store.TagDB) (pid : Nat)
    (ts : List Hocg.Str) (h : db.WF) :
    (∀ tid, ((pid, tid) ∈ (Store.replace_print_tags db pid ts).printTags ↔
      ∃ t ∈ ts,
        Store.tagIdOf (Store.replace_print_tags db pid ts) t = some tid)) ∧
    (∀ q tid, q ≠ pid →
      ((q, tid) ∈ (Store.replace_print_tags db pid ts).printTags ↔
        (q, tid) ∈ db.printTags)) ∧
    (Store.replace_print_tags db pid ts).WF := by
  rw [Store.replace_print_tags_eq_foldl]
  have h0 : (Store.TagDB.mk db.tags db.nextTagId
      (db.printTags.filter (fun pt => pt.1 ≠ pid))).WF := h
  obtain ⟨hWF, hMem, hOther, _⟩ := Store.replace_go pid ts _ h0
  refine ⟨?_, ?_, hWF⟩
  · intro tid
    rw [hMem tid]
    have hni : (pid, tid) ∉ (db.printTags.filter (fun pt => pt.1 ≠ pid)) := by
      intro hmem
      have := List.of_mem_filter hmem
      simp at this
    simp only [hni, false_or]
  · intro q tid hq
    rw [hOther q tid hq]
    constructor
    · intro hmem
      exact List.mem_of_mem_filter hmem
    · intro hmem
      exact List.mem_filter_of_mem hmem (by simpa using hq)

/-- Witness for C4: replacing with the empty tag list removes the print's
rows (and only them). -/
theorem C4_replace_tags_full_snapshot_witness :
    Store.TagDB.WF ⟨[⟨0, "#a".data, "a".data⟩], 1, [(5, 0), (6, 0)]⟩ ∧
      (5, 0) ∉ (Store.replace_print_tags
          ⟨[⟨0, "#a".data, "a".data⟩], 1, [(5, 0), (6, 0)]⟩ 5 []).printTags := by
  refine ⟨by decide, ?_⟩
  intro hmem
  have h :=
    (C4_replace_tags_full_snapshot
        ⟨[⟨0, "#a".data, "a".data⟩], 1, [(5, 0), (6, 0)]⟩ 5 [] (by decide)).1 0
  rw [h] at hmem
  simp at hmem

namespace Hocg

/-- `pyTrimL` is idempotent. -/
theorem pyTrimL_idem (l : Str) : pyTrimL (pyTrimL l) = pyTrimL l := by
  induction l with
  | nil => rfl
  | cons c rest ih =>
    by_cases hc : pySpace c
    · simpa [pyTrimL, List.dropWhile, hc] using ih
    · simp [pyTrimL, List.dropWhile, hc]

/-- `pyTrimR` is idempotent. -/
theorem pyTrimR_idem (l : Str) : pyTrimR (pyTrimR l) = pyTrimR l := by
  induction l with
  | nil => rfl
  | cons c rest ih =>
    cases h : pyTrimR rest with
    | nil =>
      by_cases hc : pySpace c
      · simp [pyTrimR, h, hc]
      · simp [pyTrimR, h, hc]
    | cons x xs =>
      have h3 : pyTrimR (x :: xs) = x :: xs := by rw [← h]; exact ih
      have h2 : pyTrimR (c :: rest) = c :: (x :: xs) := by rw [pyTrimR, h]
      rw [h2, pyTrimR, h3]

/-- Left-trimming never lengthens a list. -/
theorem pyTrimL_length (l : Str) : (pyTrimL l).length ≤ l.length := by
  induction l with
  | nil => simp [pyTrimL]
  | cons c rest ih =>
    by_cases hc : pySpace c
    · simp only [pyTrimL, List.dropWhile, hc]
      exact Nat.le_trans ih (by simp)
    · simp [pyTrimL, List.dropWhile, hc]

/-- A left-trimmed list does not begin with whitespace. -/
theorem pyTrimL_head (c : Char) (rest : Str)
    (h : pyTrimL (c :: rest) = c :: rest) : pySpace c = false := by
  by_contra hc
  simp only [Bool.not_eq_false] at hc
  have hlen : (pyTrimL (c :: rest)).length ≤ rest.length := by
    simpa [pyTrimL, List.dropWhile, hc] using pyTrimL_length rest
  rw [h] at hlen
  simp at hlen

/-- `pyTrimR` keeps a non-space head (and then yields a nonempty list). -/
theorem pyTrimR_cons_keep (c : Char) (rest : Str) (hc : pySpace c = false) :
    pyTrimR (c :: rest) = c :: pyTrimR rest ∨ pyTrimR (c :: rest) = [c] := by
  cases h : pyTrimR rest with
  | nil => right; simp [pyTrimR, h, hc]
  | cons x xs => left; simp [pyTrimR, h]

/-- Left-trimmedness is preserved by `pyTrimR`. -/
theorem pyTrimL_pyTrimR (l : Str) (h : pyTrimL l = l) :
    pyTrimL (pyTrimR l) = pyTrimR l := by
  cases l with
  | nil => rfl
  | cons c rest =>
    have hc := pyTrimL_head c rest h
    rcases pyTrimR_cons_keep c rest hc with hr | hr <;>
      simp [hr, pyTrimL, List.dropWhile, hc]

/-- Python's `strip` is idempotent. -/
theorem pyTrim_idem (l : Str) : pyTrim (pyTrim l) = pyTrim l := by
  unfold pyTrim
  rw [pyTrimL_pyTrimR (pyTrimL l) (pyTrimL_idem l), pyTrimR_idem]

end Hocg

namespace SearchDb

/-- Membership of the `_unique_terms` accumulator loop. -/
theorem mem_uniqueGo (l : List Hocg.Str) :
    ∀ (seen : List Hocg.Str) (x : Hocg.Str),
      x ∈ uniqueGo seen l ↔
        (∃ v ∈ l, Hocg.pyTrim v = x) ∧ x ≠ [] ∧ x ∉ seen := by
  induction l with
  | nil => intro seen x; simp [uniqueGo]
  | cons v rest ih =>
    intro seen x
    by_cases hv : Hocg.pyTrim v = [] ∨ Hocg.pyTrim v ∈ seen
    · rw [show uniqueGo seen (v :: rest) = uniqueGo seen rest by
        simp only [uniqueGo]; rw [if_pos hv]]
      rw [ih seen x]
      constructor
      · rintro ⟨⟨w, hw, hwx⟩, hne, hns⟩
        exact ⟨⟨w, List.mem_cons_of_mem _ hw, hwx⟩, hne, hns⟩
      · rintro ⟨⟨w, hw, hwx⟩, hne, hns⟩
        rcases List.mem_cons.1 hw with hwv | hw
        · exfalso
          rw [hwv] at hwx
          rcases hv with hv | hv
          · exact hne (hwx ▸ hv ▸ rfl)
          · exact hns (hwx ▸ hv)
        · exact ⟨⟨w, hw, hwx⟩, hne, hns⟩
    · rw [show uniqueGo seen (v :: rest) =
          Hocg.pyTrim v :: uniqueGo (Hocg.pyTrim v :: seen) rest by
        simp only [uniqueGo]; rw [if_neg hv]]
      push_neg at hv
      obtain ⟨hv1, hv2⟩ := hv
      constructor
      · intro hx
        rcases List.mem_cons.1 hx with hxv | hx
        · exact ⟨⟨v, by simp, hxv.symm⟩, by rw [hxv]; exact ⟨hv1, hv2⟩⟩
        · obtain ⟨⟨w, hw, hwx⟩, hne, hns⟩ := (ih _ x).1 hx
          refine ⟨⟨w, List.mem_cons_of_mem _ hw, hwx⟩, hne, ?_⟩
          intro hxs
          exact hns (List.mem_cons_of_mem _ hxs)
      · rintro ⟨⟨w, hw, hwx⟩, hne, hns⟩
        by_cases hxv : x = Hocg.pyTrim v
        · rw [hxv]; simp
        · refine List.mem_cons_of_mem _ ((ih _ x).2 ⟨⟨w, ?_, hwx⟩, hne, ?_⟩)
          · rcases List.mem_cons.1 hw with hwv | hw
            · exact absurd (hwv ▸ hwx).symm hxv
            · exact hw
          · intro hxs
            rcases List.mem_cons.1 hxs with hxs | hxs
            · exact hxv hxs
            · exact hns hxs

/-- Membership of `_unique_terms`. -/
theorem mem_unique_terms (l : List Hocg.Str) (x : Hocg.Str) :
    x ∈ unique_terms l ↔ (∃ v ∈ l, Hocg.pyTrim v = x) ∧ x ≠ [] := by
  rw [unique_terms, mem_uniqueGo]
  simp

/-- The base terms are among the alias-expanded terms. -/
theorem base_subset_build (q : Hocg.Str) :
    ∀ x ∈ base_terms q, x ∈ build_search_terms q := by
  intro x hx
  have hprops := (mem_unique_terms _ x).1 hx
  obtain ⟨⟨v, _, hvx⟩, hne⟩ := hprops
  refine (mem_unique_terms _ x).2 ⟨⟨x, ?_, ?_⟩, hne⟩
  · exact List.mem_append.2 (Or.inl hx)
  · rw [← hvx, Hocg.pyTrim_idem]

/-- `List.any` is monotone under list inclusion. -/
theorem any_mono {α : Type} {l1 l2 : List α} (p : α → Bool)
    (hsub : ∀ x ∈ l1, x ∈ l2) (h : l1.any p = true) : l2.any p = true := by
  simp only [List.any_eq_true] at h ⊢
  obtain ⟨x, hx, hp⟩ := h
  exact ⟨x, hsub x hx, hp⟩

/-- The `WHERE` disjunction only grows when terms are added. -/
theorem suggestCond_mono (q : Hocg.Str) {t1 t2 n1 n2 : List Hocg.Str}
    (ht : ∀ x ∈ t1, x ∈ t2) (hn : ∀ x ∈ n1, x ∈ n2)
    (p : PrintRec) (ko : Option KoRec) (t : Option TagRec)
    (h : suggestCond q t1 n1 p ko t = true) :
    suggestCond q t2 n2 p ko t = true := by
  simp only [suggestCond, Bool.or_eq_true] at h ⊢
  rcases h with ((h | h) | h) | h
  · exact Or.inl (Or.inl (Or.inl h))
  · exact Or.inl (Or.inl (Or.inr h))
  · exact Or.inl (Or.inr (any_mono _ ht h))
  · exact Or.inr (any_mono _ hn h)

/-- Membership of an unlimited query result. -/
theorem mem_runQuery_none (db : SDB) (cond : PrintRec → Option TagRec → Bool)
    (p : PrintRec) :
    p ∈ runQuery db cond none ↔
      p ∈ db.prints ∧
        (tagJoinRows db p.printId).any (fun t => cond p t) = true := by
  unfold runQuery
  rw [(List.mergeSort_perm _ _).mem_iff, List.mem_filter]

end SearchDb

namespace SearchDb

/-- For normalized-term lists, inclusion of term lists transfers. -/
theorem norm_terms_mono {t1 t2 : List Hocg.Str}
    (ht : ∀ x ∈ t1, x ∈ t2) :
    ∀ n ∈ unique_terms (t1.map normalize_term),
      n ∈ unique_terms (t2.map normalize_term) := by
  intro n hn
  obtain ⟨⟨m, hm, hmn⟩, hne⟩ := (mem_unique_terms _ n).1 hn
  obtain ⟨t0, ht0, hmt0⟩ := List.mem_map.1 hm
  exact (mem_unique_terms _ n).2
    ⟨⟨m, List.mem_map.2 ⟨t0, ht t0 ht0, hmt0⟩, hmn⟩, hne⟩

/-- A print carrying a tag whose text matches some search term is returned
by the term-parametrized suggest query (unlimited). -/
theorem mem_suggest_of_tag_term (db : SDB) (q b : Hocg.Str)
    (terms : List Hocg.Str) (p : PrintRec) (tid : Nat) (tr : TagRec)
    (hterm : b ∈ terms) (hp : p ∈ db.prints)
    (hpt : (p.printId, tid) ∈ db.printTags)
    (hfind : db.tags.find? (fun r => r.tagId = tid) = some tr)
    (hlike : likeC b tr.tag = true) :
    p ∈ query_suggest_terms db q terms none := by
  unfold query_suggest_terms
  rw [mem_runQuery_none]
  refine ⟨hp, ?_⟩
  rw [List.any_eq_true]
  refine ⟨some tr, ?_, ?_⟩
  · unfold tagJoinRows
    have hmemf : (p.printId, tid) ∈
        db.printTags.filter (fun pt => pt.1 = p.printId) :=
      List.mem_filter_of_mem hpt (by simp)
    cases hf : db.printTags.filter (fun pt => pt.1 = p.printId) with
    | nil => rw [hf] at hmemf; cases hmemf
    | cons y ys =>
      rw [hf] at hmemf
      exact List.mem_map.2 ⟨(p.printId, tid), hmemf, by simpa using hfind⟩
  · simp only [suggestCond, Bool.or_eq_true]
    refine Or.inl (Or.inr ?_)
    rw [List.any_eq_true]
    exact ⟨b, hterm, by simp [hlike]⟩

/-- Either side of an alias entry, searched as the full query, produces a
term list containing all of that entry's alias terms. -/
theorem alias_value_in_build_terms (a b : Hocg.Str)
    (hab : ∃ vs, (a, vs) ∈ TAG_ALIAS ∧ b ∈ vs) :
    Hocg.pyTrim a = a ∧ a ≠ [] ∧ b ∈ build_search_terms a := by
  obtain ⟨vs, hvs, hb⟩ := hab
  simp only [TAG_ALIAS, List.mem_cons, List.not_mem_nil, or_false,
    Prod.mk.injEq] at hvs
  rcases hvs with ⟨ha, hv⟩ | ⟨ha, hv⟩ <;> subst ha <;> subst hv <;>
    simp only [List.mem_cons, List.not_mem_nil, or_false] at hb <;>
    subst hb <;> exact ⟨by decide, by decide, by decide⟩

end SearchDb

/-- C8: search monotonicity under alias expansion — for every alias pair
`(a, b)` of the alias table and every database, the partial-mode unlimited
query for `a` returns a superset of what the same query would return
without alias expansion, and it includes every print carrying a tag whose
text contains `b` (in particular every card tagged only with `b`); the
alias terms are OR-added to, never replacing, the base terms. -/
theorem C8_alias_expansion_monotone (db : SearchDb.SDB) (a b : Hocg.Str)
    (hab : ∃ vs, (a, vs) ∈ SearchDb.TAG_ALIAS ∧ b ∈ vs) :
    (∀ p, p ∈ SearchDb.query_suggest_noalias db a none →
        p ∈ SearchDb.query_suggest db a none) ∧
      (∀ p ∈ db.prints, ∀ tid tr,
        (p.printId, tid) ∈ db.printTags →
        db.tags.find? (fun r => r.tagId = tid) = some tr →
        SearchDb.likeC b tr.tag = true →
        p ∈ SearchDb.query_suggest db a none) := by
  obtain ⟨htrim, hane, hbmem⟩ := SearchDb.alias_value_in_build_terms a b hab
  constructor
  · intro p hp
    unfold SearchDb.query_suggest_noalias at hp
    unfold SearchDb.query_suggest
    rw [htrim] at hp ⊢
    rw [if_neg hane] at hp ⊢
    unfold SearchDb.query_suggest_terms at hp ⊢
    rw [SearchDb.mem_runQuery_none] at hp ⊢
    refine ⟨hp.1, ?_⟩
    refine SearchDb.any_mono _ (fun t ht => ht) ?_
    rw [List.any_eq_true] at hp ⊢
    obtain ⟨t, hmem, hcond⟩ := hp.2
    exact ⟨t, hmem,
      SearchDb.suggestCond_mono a (SearchDb.base_subset_build a)
        (SearchDb.norm_terms_mono (SearchDb.base_subset_build a)) p _ t hcond⟩
  · intro p hp tid tr hpt hfind hlike
    unfold SearchDb.query_suggest
    rw [htrim, if_neg hane]
    exact SearchDb.mem_suggest_of_tag_term db a b _ p tid tr
      hbmem hp hpt hfind hlike

/-- Witness for C8: the spec's scenario — a print tagged only `#인권없음`
is returned by the partial-mode query for `동물귀`. -/
theorem C8_alias_expansion_monotone_witness :
    (∃ vs, ("동물귀".data, vs) ∈ SearchDb.TAG_ALIAS ∧ "인권없음".data ∈ vs) ∧
      (⟨1, "hBP04-002".data, none⟩ : SearchDb.PrintRec) ∈
        SearchDb.query_suggest
          ⟨[⟨1, "hBP04-002".data, none⟩], [],
            [⟨7, "#인권없음".data, none⟩], [(1, 7)]⟩
          "동물귀".data none := by
  refine ⟨⟨["인권없음".data], by decide, by decide⟩, ?_⟩
  exact (C8_alias_expansion_monotone
      ⟨[⟨1, "hBP04-002".data, none⟩], [], [⟨7, "#인권없음".data, none⟩],
        [(1, 7)]⟩
      "동물귀".data "인권없음".data
      ⟨["인권없음".data], by decide, by decide⟩).2
    ⟨1, "hBP04-002".data, none⟩ (by decide) 7 ⟨7, "#인권없음".data, none⟩
    (by decide) (by decide) (by decide)

/-- C9 (implicit): the stored `image_sha256` is the SHA-256 digest of the
image *URL string* (empty when the URL is empty), for every upsert. -/
theorem C9_image_hash_is_sha_of_url_string (db : Store.PrintsDB)
    (cn : Hocg.Str) (d : Store.Detail) (now : Hocg.Str) :
    ((Store.upsert_print db cn d now).1.rows.find?
        (fun r => r.cardNumber = Hocg.pyTrim cn)).map
        (fun r => r.imageSha256) =
      some
        (if d.imageUrl.getD [] ≠ []
         then Store.sha256_text (d.imageUrl.getD []) else []) := by
  rw [Store.upsert_print_find]
  rfl

namespace HocgTool

/-!
### Step lemmas and label facts for the normalizer loop
-/

open Hocg NormProof

theorem removeLabels_false : removeLabels false = [] := rfl

theorem normGo_nil (rp : Bool) (fuel : Nat) : normGo rp fuel [] = [] := by
  cases fuel <;> rfl

/-- All recognized labels are fixed by `normLabel`, nonempty, stripped,
newline-free, space-free, not hashtag lines, and label lines. -/
theorem allLabels_props :
    ∀ x ∈ allLabels,
      normLabel x = x ∧ x ≠ [] ∧ pyTrim x = x ∧ '\n' ∉ x ∧ ' ' ∉ x ∧
        hashLine x = false ∧ isLabelLine x = true := by decide

/-- Facts about the merge labels used by the merged-line analysis. -/
theorem mergeLabels_props :
    ∀ L ∈ mergeLabels,
      L ∈ allLabels ∧ L ≠ "タグ".data ∧ L ≠ "収録商品".data ∧
        L.filter notColon = L ∧ L ≠ [] ∧ pySpace L.headI = false ∧
        L.headI ≠ '#' := by decide

/-- The step of the loop on a `タグ` line with following hashtag lines. -/
theorem normGo_tag (fuel : Nat) (l : Str) (rest : List Str)
    (hlab : normLabel l = "タグ".data)
    (htags : rest.takeWhile hashLine ≠ []) :
    normGo false (fuel + 1) (l :: rest) =
      "タグ".data :: joinSp ((rest.takeWhile hashLine).map pyTrim) ::
        normGo false fuel (rest.dropWhile hashLine) := by
  simp only [normGo, removeLabels_false, List.not_mem_nil, if_false]
  rw [if_pos ⟨hlab, htags⟩]

/-- The step on a merge label whose next line is a label line. -/
theorem normGo_merge_label (fuel : Nat) (l v : Str) (rest' : List Str)
    (hlab : normLabel l ∈ mergeLabels) (hv : isLabelLine v = true) :
    normGo false (fuel + 1) (l :: v :: rest') =
      normLabel l :: normGo false fuel (v :: rest') := by
  have htag : ¬ (normLabel l = "タグ".data ∧
      (v :: rest').takeWhile hashLine ≠ []) := by
    rintro ⟨h1, _⟩
    have := (mergeLabels_props _ hlab).2.1
    exact this (by rw [← h1])
  simp only [normGo, removeLabels_false, List.not_mem_nil, if_false]
  rw [if_neg htag, if_pos ⟨hlab, by simp⟩, if_pos hv]

/-- The step on a merge label whose next line is a value line. -/
theorem normGo_merge_value (fuel : Nat) (l v : Str) (rest' : List Str)
    (hlab : normLabel l ∈ mergeLabels) (hv : isLabelLine v = false) :
    normGo false (fuel + 1) (l :: v :: rest') =
      (normLabel l ++ ' ' :: v) :: normGo false fuel rest' := by
  have htag : ¬ (normLabel l = "タグ".data ∧
      (v :: rest').takeWhile hashLine ≠ []) := by
    rintro ⟨h1, _⟩
    have := (mergeLabels_props _ hlab).2.1
    exact this (by rw [← h1])
  simp only [normGo, removeLabels_false, List.not_mem_nil, if_false]
  rw [if_neg htag, if_pos ⟨hlab, by simp⟩, if_neg (by simp [hv])]

/-- The step on every other line: emit the line (or its colon-stripped
label when that is recognized). -/
theorem normGo_plain (fuel : Nat) (l : Str) (rest : List Str)
    (h1 : normLabel l ∉ mergeLabels)
    (h2 : normLabel l ≠ "収録商品".data)
    (h3 : normLabel l = "タグ".data → rest.takeWhile hashLine = []) :
    normGo false (fuel + 1) (l :: rest) =
      (if normLabel l ≠ l ∧ normLabel l ∈ allLabels then normLabel l
       else l) :: normGo false fuel rest := by
  have htag : ¬ (normLabel l = "タグ".data ∧
      rest.takeWhile hashLine ≠ []) := by
    rintro ⟨ht, hne⟩
    exact hne (h3 ht)
  simp only [normGo, removeLabels_false, List.not_mem_nil, if_false]
  rw [if_neg htag, if_neg (by rintro ⟨hm, _⟩; exact h1 hm), if_neg h2]

end HocgTool

namespace Hocg

/-- `pyTrimR` erases the list exactly when it is all whitespace. -/
theorem pyTrimR_eq_nil_iff (l : Str) :
    pyTrimR l = [] ↔ ∀ c ∈ l, pySpace c = true := by
  induction l with
  | nil => simp [pyTrimR]
  | cons c rest ih =>
    cases h : pyTrimR rest with
    | nil =>
      by_cases hc : pySpace c
      · have hall := ih.1 h
        constructor
        · intro _ a ha
          rcases List.mem_cons.1 ha with rfl | ham
          · simpa using hc
          · exact hall a ham
        · intro _
          rw [pyTrimR, h]
          simp [hc]
      · simp [pyTrimR, h, hc]
    | cons x xs =>
      constructor
      · intro habs
        rw [pyTrimR, h] at habs
        cases habs
      · intro hall
        have : pyTrimR rest = [] := ih.2 fun d hd => hall d (List.mem_cons_of_mem _ hd)
        rw [this] at h
        cases h

/-- `pyTrim` erases the list exactly when it is all whitespace. -/
theorem pyTrim_eq_nil_iff (l : Str) :
    pyTrim l = [] ↔ ∀ c ∈ l, pySpace c = true := by
  unfold pyTrim
  rw [pyTrimR_eq_nil_iff]
  constructor
  · intro h c hc
    by_cases hcs : pySpace c = true
    · exact hcs
    · exfalso
      induction l with
      | nil => cases hc
      | cons d rest ih =>
        rcases List.mem_cons.1 hc with rfl | hcm
        · by_cases hd : pySpace c
          · exact hcs hd
          · have : pyTrimL (c :: rest) = c :: rest := by
              simp [pyTrimL, List.dropWhile, hd]
            rw [this] at h
            exact hcs (h c (by simp))
        · by_cases hd : pySpace d
          · refine ih ?_ hcm
            simpa [pyTrimL, List.dropWhile, hd] using h
          · have : pyTrimL (d :: rest) = d :: rest := by
              simp [pyTrimL, List.dropWhile, hd]
            rw [this] at h
            exact hcs (h c hc)
  · intro h c hc
    exact h c (List.dropWhile_subset _ hc)

/-- Trailing trim distributes over append when the right part survives. -/
theorem pyTrimR_append_keep (a b : Str) (hb : pyTrimR b ≠ []) :
    pyTrimR (a ++ b) = a ++ pyTrimR b := by
  induction a with
  | nil => rfl
  | cons c cs ih =>
    have hne : pyTrimR (cs ++ b) ≠ [] := by
      rw [ih]
      intro habs
      rcases List.append_eq_nil.1 habs with ⟨_, h2⟩
      exact hb h2
    cases h : pyTrimR (cs ++ b) with
    | nil => exact absurd h hne
    | cons x xs =>
      have hx : cs ++ pyTrimR b = x :: xs := ih.symm.trans h
      rw [List.cons_append, pyTrimR, h]
      show c :: (x :: xs) = c :: (cs ++ pyTrimR b)
      rw [hx]

/-- Characters of the trimmed list come from the list. -/
theorem mem_pyTrimR (c : Char) (l : Str) (h : c ∈ pyTrimR l) : c ∈ l := by
  induction l with
  | nil => simp [pyTrimR] at h
  | cons d rest ih =>
    cases hr : pyTrimR rest with
    | nil =>
      rw [pyTrimR, hr] at h
      by_cases hd : pySpace d
      · simp [hd] at h
      · simp [hd] at h
        simp [h]
    | cons x xs =>
      rw [pyTrimR, hr] at h
      rcases List.mem_cons.1 h with rfl | hm
      · simp
      · exact List.mem_cons_of_mem _ (ih (hr ▸ hm))

theorem mem_pyTrim (c : Char) (l : Str) (h : c ∈ pyTrim l) : c ∈ l :=
  List.dropWhile_subset _ (mem_pyTrimR c (pyTrimL l) h)

/-- A string whose head is non-space is fixed by `pyTrimL`. -/
theorem pyTrimL_cons_keep (c : Char) (rest : Str) (hc : pySpace c = false) :
    pyTrimL (c :: rest) = c :: rest := by
  simp [pyTrimL, List.dropWhile, hc]

/-- A nonempty string with non-space head has `pyTrim` starting with that
head. -/
theorem pyTrim_cons_of_head (c : Char) (rest : Str) (hc : pySpace c = false) :
    pyTrim (c :: rest) = c :: pyTrimR rest ∨ pyTrim (c :: rest) = [c] := by
  unfold pyTrim
  rw [pyTrimL_cons_keep c rest hc]
  exact pyTrimR_cons_keep c rest hc

end Hocg

namespace HocgTool

open Hocg

/-- The normalized label of a merged `label value` line: the label, one
space, then the trimmed colon-stripped value (nonempty when the value line
has a nonempty normalized label). -/
theorem normLabel_merged (L v : Str) (hL : L ∈ mergeLabels)
    (hv : normLabel v ≠ []) :
    normLabel (L ++ ' ' :: v) = L ++ ' ' :: pyTrimR (v.filter notColon) ∧
      pyTrimR (v.filter notColon) ≠ [] := by
  obtain ⟨-, -, -, hfil, hne, hhead, -⟩ := mergeLabels_props L hL
  have hR : pyTrimR (v.filter notColon) ≠ [] := by
    intro habs
    refine hv ?_
    unfold normLabel
    rw [pyTrim_eq_nil_iff]
    intro c hc
    exact (pyTrimR_eq_nil_iff _).1 habs c hc
  refine ⟨?_, hR⟩
  have hfl : (L ++ ' ' :: v).filter notColon =
      L ++ ' ' :: v.filter notColon := by
    rw [List.filter_append, hfil, List.filter_cons]
    simp [notColon]
  unfold normLabel
  rw [hfl]
  cases hLc : L with
  | nil => exact absurd hLc hne
  | cons c t =>
    have hc : pySpace c = false := by
      rw [hLc] at hhead
      simpa using hhead
    have hspace : pyTrimR (' ' :: v.filter notColon) =
        ' ' :: pyTrimR (v.filter notColon) := by
      cases hs : pyTrimR (v.filter notColon) with
      | nil => exact absurd hs hR
      | cons x xs => rw [pyTrimR, hs]
    unfold pyTrim
    rw [show (c :: t) ++ ' ' :: v.filter notColon =
        c :: (t ++ ' ' :: v.filter notColon) from rfl]
    rw [pyTrimL_cons_keep _ _ hc]
    rw [show c :: (t ++ ' ' :: v.filter notColon) =
        (c :: t) ++ ' ' :: v.filter notColon from rfl]
    rw [pyTrimR_append_keep _ _ (by rw [hspace]; exact List.cons_ne_nil _ _),
      hspace]

/-- A string containing a space is none of the recognized labels. -/
theorem space_not_label (n : Str) (h : ' ' ∈ n) :
    n ∉ allLabels ∧ n ∉ mergeLabels ∧ n ≠ "タグ".data ∧
      n ≠ "収録商品".data := by
  have hall : ∀ x ∈ allLabels, ' ' ∉ x := fun x hx =>
    (allLabels_props x hx).2.2.2.2.1
  refine ⟨fun hm => hall _ hm h,
    fun hm => hall _ (mergeLabels_props _ hm).1 h, ?_, ?_⟩
  · rintro rfl
    exact absurd h (by decide)
  · rintro rfl
    exact absurd h (by decide)

/-- `(a ++ [x]).isPrefixOf (a ++ x :: t)`. -/
theorem isPrefixOf_append_cons (a : Str) (x : Char) (t : Str) :
    (a ++ [x]).isPrefixOf (a ++ x :: t) = true := by
  rw [List.isPrefixOf_iff_prefix]
  exact ⟨t, by simp⟩

/-- A merged `label value` line is a label line. -/
theorem isLabelLine_merged (L v : Str) (hL : L ∈ mergeLabels)
    (hv : normLabel v ≠ []) : isLabelLine (L ++ ' ' :: v) = true := by
  obtain ⟨heq, -⟩ := normLabel_merged L v hL hv
  unfold isLabelLine
  rw [heq, Bool.or_eq_true]
  refine Or.inr ?_
  rw [List.any_eq_true]
  exact ⟨L, (mergeLabels_props L hL).1, isPrefixOf_append_cons _ _ _⟩

/-- A line whose normalized label is recognized is a label line. -/
theorem isLabelLine_of_mem (l : Str) (h : normLabel l ∈ allLabels) :
    isLabelLine l = true := by
  unfold isLabelLine
  rw [Bool.or_eq_true]
  refine Or.inl ?_
  rw [List.contains_iff_exists_mem_beq]
  exact ⟨normLabel l, h, by simp⟩

/-- Conversely, the membership disjunct of `isLabelLine`. -/
theorem isLabelLine_iff (l : Str) :
    isLabelLine l = true ↔
      normLabel l ∈ allLabels ∨
        ∃ lbl ∈ allLabels, (lbl ++ [' ']).isPrefixOf (normLabel l) = true := by
  unfold isLabelLine
  rw [Bool.or_eq_true, List.any_eq_true, List.contains_iff_exists_mem_beq]
  constructor
  · rintro (⟨x, hx, hbeq⟩ | h)
    · exact Or.inl (by simpa using (beq_iff_eq.1 hbeq) ▸ hx)
    · exact Or.inr h
  · rintro (h | h)
    · exact Or.inl ⟨normLabel l, h, by simp⟩
    · exact Or.inr h

end HocgTool

namespace Hocg

theorem pyTrimR_length (l : Str) : (pyTrimR l).length ≤ l.length := by
  induction l with
  | nil => simp [pyTrimR]
  | cons c rest ih =>
    cases h : pyTrimR rest with
    | nil =>
      by_cases hc : pySpace c <;> simp [pyTrimR, h, hc]
    | cons x xs =>
      rw [pyTrimR, h]
      have := ih
      rw [h] at this
      simpa using Nat.succ_le_succ this

/-- A `pyTrim`-fixed string is fixed by both one-sided trims. -/
theorem pyTrim_fix_parts (v : Str) (h : pyTrim v = v) :
    pyTrimL v = v ∧ pyTrimR v = v := by
  have h1 : (pyTrimL v).length ≤ v.length := pyTrimL_length v
  have h2 : (pyTrimR (pyTrimL v)).length ≤ (pyTrimL v).length :=
    pyTrimR_length _
  have hv : (pyTrim v).length = v.length := by rw [h]
  unfold pyTrim at hv
  have hlen : (pyTrimL v).length = v.length := by omega
  have hL : pyTrimL v = v :=
    List.Sublist.eq_of_length (List.dropWhile_sublist pySpace) hlen
  refine ⟨hL, ?_⟩
  have := h
  unfold pyTrim at this
  rw [hL] at this
  exact this

/-- `pyTrim` of `label ++ " " ++ value` for a solid label and a stripped
nonempty value is the identity. -/
theorem pyTrim_sep_append (L v : Str) (sep : Char) (hL : L ≠ [])
    (hhead : pySpace L.headI = false) (hv : v ≠ []) (hvR : pyTrimR v = v) :
    pyTrim (L ++ sep :: v) = L ++ sep :: v := by
  have hsep : pyTrimR (sep :: v) = sep :: v := by
    cases hvc : v with
    | nil => exact absurd hvc hv
    | cons x xs =>
      rw [← hvc, pyTrimR, hvR, hvc]
  cases hLc : L with
  | nil => exact absurd hLc hL
  | cons c t =>
    have hc : pySpace c = false := by
      rw [hLc] at hhead
      simpa using hhead
    unfold pyTrim
    rw [show (c :: t) ++ sep :: v = c :: (t ++ sep :: v) from rfl,
      pyTrimL_cons_keep _ _ hc,
      show c :: (t ++ sep :: v) = (c :: t) ++ sep :: v from rfl,
      pyTrimR_append_keep _ _ (by rw [hsep]; exact List.cons_ne_nil _ _),
      hsep]

/-- Characters of a space-joined list come from the pieces or are the
separator. -/
theorem mem_joinSp (c : Char) : ∀ ps : List Str, c ∈ joinSp ps →
    c = ' ' ∨ ∃ p ∈ ps, c ∈ p := by
  intro ps
  induction ps with
  | nil => intro h; simp [joinSp] at h
  | cons p ps ih =>
    intro h
    cases ps with
    | nil =>
      simp only [joinSp] at h
      exact Or.inr ⟨p, by simp, h⟩
    | cons q qs =>
      rw [show joinSp (p :: q :: qs) = p ++ ' ' :: joinSp (q :: qs) from rfl]
        at h
      rcases List.mem_append.1 h with h | h
      · exact Or.inr ⟨p, by simp, h⟩
      · rcases List.mem_cons.1 h with rfl | h
        · exact Or.inl rfl
        · rcases ih h with h | ⟨r, hr, hcr⟩
          · exact Or.inl h
          · exact Or.inr ⟨r, List.mem_cons_of_mem _ hr, hcr⟩

/-- Joining hashtag pieces (each stripped, starting with `#`) yields a
stripped nonempty hashtag string. -/
theorem joinSp_solid : ∀ ps : List Str, ps ≠ [] →
    (∀ p ∈ ps, pyTrim p = p ∧ ∃ u, p = '#' :: u) →
    pyTrim (joinSp ps) = joinSp ps ∧ ∃ u, joinSp ps = '#' :: u := by
  intro ps
  induction ps with
  | nil => intro h; exact absurd rfl h
  | cons p ps ih =>
    intro _ h
    cases ps with
    | nil => simpa [joinSp] using h p (by simp)
    | cons q qs =>
      obtain ⟨hq, u', hqu⟩ :=
        ih (by simp) (fun r hr => h r (List.mem_cons_of_mem _ hr))
      obtain ⟨hp, u, hpu⟩ := h p (by simp)
      have hqR : pyTrimR (joinSp (q :: qs)) = joinSp (q :: qs) :=
        (pyTrim_fix_parts _ hq).2
      rw [show joinSp (p :: q :: qs) = p ++ ' ' :: joinSp (q :: qs) from rfl]
      constructor
      · refine pyTrim_sep_append _ _ _ ?_ ?_ ?_ hqR
        · rw [hpu]; exact List.cons_ne_nil _ _
        · rw [hpu]; rfl
        · rw [hqu]; exact List.cons_ne_nil _ _
      · rw [hpu]
        exact ⟨u ++ ' ' :: joinSp (q :: qs), rfl⟩

/-- The hashtag-line test in terms of the trimmed string. -/
theorem hashLine_iff (l : Str) :
    hashLine l = true ↔ ∃ u, pyTrim l = '#' :: u := by
  unfold hashLine
  cases h : pyTrim l with
  | nil => simp
  | cons c u => simp [List.cons.injEq, eq_comm]

/-- `splitNl` never yields the empty list of pieces. -/
theorem splitNl_ne_nil (s : Str) : splitNl s ≠ [] := by
  induction s with
  | nil => simp [splitNl]
  | cons c rest ih =>
    by_cases hc : c = '\n'
    · simp [splitNl, hc]
    · simp only [splitNl, hc, if_false]
      cases h : splitNl rest with
      | nil => simp
      | cons x xs => simp

/-- Pieces of `splitNl` are newline-free. -/
theorem splitNl_no_newline : ∀ (s : Str), ∀ x ∈ splitNl s, '\n' ∉ x := by
  intro s
  induction s with
  | nil => intro x hx; simp [splitNl] at hx; simp [hx]
  | cons c rest ih =>
    intro x hx
    by_cases hc : c = '\n'
    · rw [splitNl, if_pos hc] at hx
      rcases List.mem_cons.1 hx with rfl | hx
      · simp
      · exact ih x hx
    · rw [splitNl, if_neg hc] at hx
      cases h : splitNl rest with
      | nil => exact absurd h (splitNl_ne_nil rest)
      | cons s' ss =>
        rw [h] at hx
        rcases List.mem_cons.1 hx with rfl | hx
        · intro habs
          rcases List.mem_cons.1 habs with h1 | h1
          · exact hc h1.symm
          · exact ih s' (h ▸ List.mem_cons_self _ _) h1
        · exact ih x (h ▸ List.mem_cons_of_mem _ hx)

/-- Splitting after a newline-free prefix and an explicit newline. -/
theorem splitNl_append_newline (x r : Str) (hx : '\n' ∉ x) :
    splitNl (x ++ '\n' :: r) = x :: splitNl r := by
  induction x with
  | nil => simp [splitNl]
  | cons c cs ih =>
    have hc : ¬ c = '\n' := fun h => hx (h ▸ List.mem_cons_self _ _)
    rw [List.cons_append, splitNl, if_neg hc,
      ih (fun h => hx (List.mem_cons_of_mem _ h))]

/-- Splitting a newline-free string. -/
theorem splitNl_single (x : Str) (hx : '\n' ∉ x) : splitNl x = [x] := by
  induction x with
  | nil => rfl
  | cons c cs ih =>
    have hc : ¬ c = '\n' := fun h => hx (h ▸ List.mem_cons_self _ _)
    rw [splitNl, if_neg hc, ih (fun h => hx (List.mem_cons_of_mem _ h))]

/-- Splitting the joined lines recovers the lines. -/
theorem splitNl_joinNl : ∀ (out : List Str), out ≠ [] →
    (∀ o ∈ out, '\n' ∉ o) → splitNl (joinNl out) = out := by
  intro out
  induction out with
  | nil => intro h; exact absurd rfl h
  | cons o os ih =>
    intro _ h
    cases os with
    | nil => exact splitNl_single o (h o (by simp))
    | cons o' os' =>
      rw [show joinNl (o :: o' :: os') = o ++ '\n' :: joinNl (o' :: os')
          from rfl,
        splitNl_append_newline o _ (h o (by simp)),
        ih (by simp) (fun p hp => h p (List.mem_cons_of_mem _ hp))]

/-- The line-splitting front end is the identity on joined clean lines. -/
theorem cleanLines_joinNl (out : List Str)
    (h : ∀ o ∈ out, o ≠ [] ∧ pyTrim o = o ∧ '\n' ∉ o) :
    cleanLines (joinNl out) = out := by
  cases out with
  | nil => rfl
  | cons o os =>
    unfold cleanLines
    rw [splitNl_joinNl (o :: os) (by simp) (fun p hp => (h p hp).2.2)]
    have hmap : List.map pyTrim (o :: os) = o :: os := by
      refine List.map_congr_left ?_ |>.trans (List.map_id _)
      intro p hp
      exact (h p hp).2.1
    rw [hmap]
    rw [List.filter_eq_self.2 (fun p hp => by simpa using (h p hp).1)]

/-- The front end always produces clean lines. -/
theorem cleanLines_clean (s : Str) : NormProof.Clean (cleanLines s) := by
  intro l hl
  unfold cleanLines at hl
  have hne := (List.mem_filter.1 hl).2
  have hmap := (List.mem_filter.1 hl).1
  obtain ⟨y, hy, hyl⟩ := List.mem_map.1 hmap
  refine ⟨by simpa using hne, ?_, ?_⟩
  · rw [← hyl, pyTrim_idem]
  · intro habs
    exact splitNl_no_newline s y hy (mem_pyTrim _ _ (hyl ▸ habs))

end Hocg

namespace HocgTool

open Hocg NormProof

/-- The step on a merge label standing at the end of the input. -/
theorem normGo_merge_end (fuel : Nat) (l : Str)
    (hlab : normLabel l ∈ mergeLabels) :
    normGo false (fuel + 1) [l] =
      [if normLabel l ≠ l ∧ normLabel l ∈ allLabels then normLabel l
       else l] := by
  have htag : ¬ (normLabel l = "タグ".data ∧
      ([] : List Str).takeWhile hashLine ≠ []) := by
    rintro ⟨-, h⟩
    exact h rfl
  have hsho : normLabel l ≠ "収録商品".data := (mergeLabels_props _ hlab).2.2.1
  simp only [normGo, removeLabels_false, List.not_mem_nil, if_false]
  rw [if_neg htag, if_neg (by rintro ⟨-, h⟩; exact h rfl), if_neg hsho,
    normGo_nil]

/-- The head of a `dropWhile` result fails the predicate. -/
theorem dropWhile_head_false {α : Type} {p : α → Bool} :
    ∀ (l : List α) (x : α) (xs : List α),
      l.dropWhile p = x :: xs → p x = false := by
  intro l
  induction l with
  | nil => intro x xs h; cases h
  | cons c t ih =>
    intro x xs h
    by_cases hc : p c
    · rw [List.dropWhile_cons_of_pos hc] at h
      exact ih x xs h
    · rw [List.dropWhile_cons_of_neg hc] at h
      cases h
      simpa using hc

/-- An empty `takeWhile` over a cons means the head fails the predicate. -/
theorem takeWhile_nil_head {α : Type} {p : α → Bool} (r : α) (rs : List α)
    (h : (r :: rs).takeWhile p = []) : p r = false := by
  by_cases hr : p r
  · rw [List.takeWhile_cons_of_pos hr] at h
    cases h
  · simpa using hr

/-- Members of a `takeWhile` result satisfy the predicate. -/
theorem mem_takeWhile_pred {α : Type} {p : α → Bool} :
    ∀ (l : List α) (x : α), x ∈ l.takeWhile p → p x = true := by
  intro l
  induction l with
  | nil => intro x h; cases h
  | cons c t ih =>
    intro x h
    by_cases hc : p c
    · rw [List.takeWhile_cons_of_pos hc] at h
      rcases List.mem_cons.1 h with rfl | h
      · exact hc
      · exact ih x h
    · rw [List.takeWhile_cons_of_neg hc] at h
      cases h

/-- A stripped string with a non-hash head is not a hashtag line. -/
theorem hashLine_false_of (s : Str) (c : Char) (t : Str) (hs : s = c :: t)
    (hfix : pyTrim s = s) (hc : c ≠ '#') : hashLine s = false := by
  unfold hashLine
  rw [hfix, hs]
  simpa using hc

end HocgTool

namespace NormProof

open Hocg HocgTool

/-- The normalizer's output, on clean `GoodLabels` input, is canonical,
clean, and preserves the head classifications used by the `タグ` and merge
rules. -/
theorem normGo_canon : ∀ (fuel : Nat) (ls : List Str), Clean ls →
    GoodLabels ls →
    Canon (normGo false fuel ls) ∧ Clean (normGo false fuel ls) ∧
      (headNotHash ls → headNotHash (normGo false fuel ls)) ∧
      (headLabel ls → headLabel (normGo false fuel ls)) := by
  intro fuel
  induction fuel with
  | zero =>
    intro ls _ _
    exact ⟨Canon.nil, fun l hl => absurd hl (List.not_mem_nil l),
      fun _ => trivial, fun _ => trivial⟩
  | succ fuel ih =>
    intro ls hclean hgood
    cases ls with
    | nil =>
      exact ⟨Canon.nil, fun l hl => absurd hl (List.not_mem_nil l),
        fun _ => trivial, fun _ => trivial⟩
    | cons l rest =>
      have hl := hclean l (List.mem_cons_self _ _)
      have hrest : Clean rest := fun x hx =>
        hclean x (List.mem_cons_of_mem _ hx)
      have hgrest : GoodLabels rest := fun x hx =>
        hgood x (List.mem_cons_of_mem _ hx)
      have hgl := hgood l (List.mem_cons_self _ _)
      by_cases htag : normLabel l = "タグ".data ∧
          rest.takeWhile hashLine ≠ []
      · obtain ⟨hlab, htw⟩ := htag
        rw [normGo_tag fuel l rest hlab htw]
        have htagprops := allLabels_props "タグ".data (by decide)
        have hpieces : ∀ p ∈ (rest.takeWhile hashLine).map pyTrim,
            pyTrim p = p ∧ ∃ u, p = '#' :: u := by
          intro p hp
          obtain ⟨t, ht, rfl⟩ := List.mem_map.1 hp
          refine ⟨pyTrim_idem t, ?_⟩
          exact (hashLine_iff t).1 (mem_takeWhile_pred rest t ht)
        have hJ := joinSp_solid ((rest.takeWhile hashLine).map pyTrim)
          (by simpa using htw) hpieces
        obtain ⟨hJtrim, u, hJu⟩ := hJ
        have hJhash : hashLine
            (joinSp ((rest.takeWhile hashLine).map pyTrim)) = true :=
          (hashLine_iff _).2 ⟨u, by rw [hJtrim]; exact hJu⟩
        have hdropclean : Clean (rest.dropWhile hashLine) := fun x hx =>
          hrest x (List.dropWhile_subset _ hx)
        have hdropgood : GoodLabels (rest.dropWhile hashLine) := fun x hx =>
          hgrest x (List.dropWhile_subset _ hx)
        obtain ⟨ihC, ihClean, ihNH, -⟩ :=
          ih (rest.dropWhile hashLine) hdropclean hdropgood
        have hheadd : headNotHash (rest.dropWhile hashLine) := by
          cases hd : rest.dropWhile hashLine with
          | nil => trivial
          | cons x xs =>
            exact dropWhile_head_false rest x xs hd
        refine ⟨Canon.tagB _ _ hJhash hJtrim (ihNH hheadd) ihC, ?_, ?_, ?_⟩
        · intro e he
          rcases List.mem_cons.1 he with rfl | he
          · exact ⟨htagprops.2.1, htagprops.2.2.1, htagprops.2.2.2.1⟩
          rcases List.mem_cons.1 he with rfl | he
          · refine ⟨by rw [hJu]; exact List.cons_ne_nil _ _, hJtrim, ?_⟩
            intro habs
            rcases mem_joinSp _ _ habs with h | ⟨p, hp, hcp⟩
            · cases h
            · obtain ⟨t, ht, rfl⟩ := List.mem_map.1 hp
              exact (hrest t (List.takeWhile_subset _ ht)).2.2
                (mem_pyTrim _ _ hcp)
          · exact ihClean e he
        · intro _
          show hashLine "タグ".data = false
          decide
        · intro _
          show isLabelLine "タグ".data = true
          decide
      · by_cases hmerge : normLabel l ∈ mergeLabels
        · have hmprops := mergeLabels_props _ hmerge
          have hmall := allLabels_props _ hmprops.1
          cases rest with
          | nil =>
            rw [normGo_merge_end fuel l hmerge]
            have he : (if normLabel l ≠ l ∧ normLabel l ∈ allLabels
                then normLabel l else l) = normLabel l := by
              by_cases hll : normLabel l = l
              · rw [if_neg (by rintro ⟨h, -⟩; exact h hll), hll]
              · rw [if_pos ⟨hll, hmprops.1⟩]
            rw [he]
            refine ⟨Canon.mergeAlone _ _ hmerge trivial Canon.nil, ?_, ?_, ?_⟩
            · intro e he'
              rcases List.mem_cons.1 he' with rfl | he'
              · exact ⟨hmall.2.1, hmall.2.2.1, hmall.2.2.2.1⟩
              · cases he'
            · intro _
              show hashLine (normLabel l) = false
              exact hmall.2.2.2.2.2.1
            · intro _
              show isLabelLine (normLabel l) = true
              exact hmall.2.2.2.2.2.2
          | cons v rest' =>
            by_cases hlv : isLabelLine v = true
            · rw [normGo_merge_label fuel l v rest' hmerge hlv]
              obtain ⟨ihC, ihClean, -, ihHL⟩ := ih (v :: rest') hrest hgrest
              refine ⟨Canon.mergeAlone _ _ hmerge (ihHL hlv) ihC, ?_, ?_, ?_⟩
              · intro e he'
                rcases List.mem_cons.1 he' with rfl | he'
                · exact ⟨hmall.2.1, hmall.2.2.1, hmall.2.2.2.1⟩
                · exact ihClean e he'
              · intro _
                show hashLine (normLabel l) = false
                exact hmall.2.2.2.2.2.1
              · intro _
                show isLabelLine (normLabel l) = true
                exact hmall.2.2.2.2.2.2
            · rw [normGo_merge_value fuel l v rest' hmerge
                (by simpa using hlv)]
              have hvclean := hclean v (by simp)
              have hvgood := hgood v (by simp)
              obtain ⟨hmEq, hmNe⟩ :=
                normLabel_merged (normLabel l) v hmerge hvgood.2
              have hsp : ' ' ∈ normLabel (normLabel l ++ ' ' :: v) := by
                rw [hmEq]
                exact List.mem_append.2 (Or.inr (List.mem_cons_self _ _))
              obtain ⟨hnall, hnmerge, hntag, hnsho⟩ := space_not_label _ hsp
              have hrest' : Clean rest' := fun x hx =>
                hrest x (List.mem_cons_of_mem _ hx)
              have hgrest' : GoodLabels rest' := fun x hx =>
                hgrest x (List.mem_cons_of_mem _ hx)
              obtain ⟨ihC, ihClean, -, -⟩ := ih rest' hrest' hgrest'
              have hmtrim : pyTrim (normLabel l ++ ' ' :: v) =
                  normLabel l ++ ' ' :: v := by
                refine pyTrim_sep_append _ _ _ hmprops.2.2.2.2.1
                  hmprops.2.2.2.2.2.1 hvclean.1 (pyTrim_fix_parts v hvclean.2.1).2
              refine ⟨Canon.plain _ _ hnmerge hnsho
                (fun habs => absurd habs hntag)
                (fun habs => absurd habs hnall) ihC, ?_, ?_, ?_⟩
              · intro e he'
                rcases List.mem_cons.1 he' with rfl | he'
                · refine ⟨by simp, hmtrim, ?_⟩
                  intro habs
                  rcases List.mem_append.1 habs with h | h
                  · exact hmall.2.2.2.1 h
                  · rcases List.mem_cons.1 h with h | h
                    · cases h
                    · exact hvclean.2.2 h
                · exact ihClean e he'
              · intro _
                have hex : ∃ c t, normLabel l = c :: t ∧ c ≠ '#' := by
                  cases hLc : normLabel l with
                  | nil => exact absurd hLc hmprops.2.2.2.2.1
                  | cons c t =>
                    refine ⟨c, t, rfl, ?_⟩
                    have := hmprops.2.2.2.2.2.2
                    rw [hLc] at this
                    simpa using this
                obtain ⟨c, t, hLc, hch⟩ := hex
                exact hashLine_false_of _ c (t ++ ' ' :: v)
                  (by rw [hLc]; rfl) hmtrim hch
              · intro _
                show isLabelLine (normLabel l ++ ' ' :: v) = true
                exact isLabelLine_merged _ _ hmerge hvgood.2
        · have h3 : normLabel l = "タグ".data →
              rest.takeWhile hashLine = [] := by
            intro ht
            by_contra hne
            exact htag ⟨ht, hne⟩
          rw [normGo_plain fuel l rest hmerge hgl.1 h3]
          obtain ⟨ihC, ihClean, ihNH, -⟩ := ih rest hrest hgrest
          have heNorm : normLabel (if normLabel l ≠ l ∧
              normLabel l ∈ allLabels then normLabel l else l) =
              normLabel l := by
            by_cases hcond : normLabel l ≠ l ∧ normLabel l ∈ allLabels
            · rw [if_pos hcond]
              exact (allLabels_props _ hcond.2).1
            · rw [if_neg hcond]
          have hheadrest : normLabel l = "タグ".data →
              headNotHash rest := by
            intro ht
            have := h3 ht
            cases rest with
            | nil => trivial
            | cons r rs => exact takeWhile_nil_head r rs this
          refine ⟨Canon.plain _ _ (by rw [heNorm]; exact hmerge)
            (by rw [heNorm]; exact hgl.1)
            (fun habs => ihNH (hheadrest (by rw [← heNorm]; exact habs)))
            ?_ ihC, ?_, ?_, ?_⟩
          · rw [heNorm]
            intro hall
            by_cases hcond : normLabel l ≠ l ∧ normLabel l ∈ allLabels
            · rw [if_pos hcond]
            · rw [if_neg hcond]
              by_contra hne
              exact hcond ⟨hne, hall⟩
          · intro e he'
            rcases List.mem_cons.1 he' with rfl | he'
            · by_cases hcond : normLabel l ≠ l ∧ normLabel l ∈ allLabels
              · rw [if_pos hcond]
                have := allLabels_props _ hcond.2
                exact ⟨this.2.1, this.2.2.1, this.2.2.2.1⟩
              · rw [if_neg hcond]
                exact hl
            · exact ihClean e he'
          · intro hnh
            have hthis : hashLine (if normLabel l ≠ l ∧
                normLabel l ∈ allLabels then normLabel l else l) = false := by
              by_cases hcond : normLabel l ≠ l ∧ normLabel l ∈ allLabels
              · rw [if_pos hcond]
                exact (allLabels_props _ hcond.2).2.2.2.2.2.1
              · rw [if_neg hcond]
                exact hnh
            exact hthis
          · intro hhl
            have hthis : isLabelLine (if normLabel l ≠ l ∧
                normLabel l ∈ allLabels then normLabel l else l) = true := by
              by_cases hcond : normLabel l ≠ l ∧ normLabel l ∈ allLabels
              · rw [if_pos hcond]
                exact (allLabels_props _ hcond.2).2.2.2.2.2.2
              · rw [if_neg hcond]
                exact hhl
            exact hthis

end NormProof

namespace NormProof

open Hocg HocgTool

/-- The loop is the identity on canonical line lists (any sufficient
fuel). -/
theorem canon_id : ∀ (os : List Str), Canon os → ∀ fuel, os.length ≤ fuel →
    normGo false fuel os = os := by
  intro os hc
  induction hc with
  | nil => intro fuel _; exact normGo_nil false fuel
  | tagB J rest hJ hJt hr hcr ih =>
    intro fuel hlen
    obtain ⟨f, rfl⟩ : ∃ f, fuel = f + 1 := by
      cases fuel
      · simp at hlen
      · exact ⟨_, rfl⟩
    have htake : (J :: rest).takeWhile hashLine = [J] := by
      rw [List.takeWhile_cons_of_pos hJ]
      cases rest with
      | nil => rfl
      | cons r rs =>
        rw [List.takeWhile_cons_of_neg (by simpa using (hr : hashLine r = false))]
    have hdrop : (J :: rest).dropWhile hashLine = rest := by
      rw [List.dropWhile_cons_of_pos hJ]
      cases rest with
      | nil => rfl
      | cons r rs =>
        rw [List.dropWhile_cons_of_neg (by simpa using (hr : hashLine r = false))]
    rw [normGo_tag f "タグ".data (J :: rest) (by decide)
      (by rw [htake]; exact List.cons_ne_nil _ _)]
    rw [htake, hdrop, List.map_cons, List.map_nil, hJt]
    rw [show joinSp [J] = J from rfl]
    rw [ih f (by simp at hlen ⊢; omega)]
  | mergeAlone L rest hL hr hcr ih =>
    intro fuel hlen
    obtain ⟨f, rfl⟩ : ∃ f, fuel = f + 1 := by
      cases fuel
      · simp at hlen
      · exact ⟨_, rfl⟩
    have hnorm : normLabel L = L :=
      (allLabels_props _ (mergeLabels_props _ hL).1).1
    cases rest with
    | nil =>
      rw [normGo_merge_end f L (by rw [hnorm]; exact hL), hnorm,
        if_neg (by rintro ⟨h, -⟩; exact h rfl)]
    | cons v rest' =>
      have hlv : isLabelLine v = true := hr
      rw [normGo_merge_label f L v rest' (by rw [hnorm]; exact hL) hlv,
        hnorm, ih f (by simp at hlen ⊢; omega)]
  | plain l rest h1 h2 h3 h4 hcr ih =>
    intro fuel hlen
    obtain ⟨f, rfl⟩ : ∃ f, fuel = f + 1 := by
      cases fuel
      · simp at hlen
      · exact ⟨_, rfl⟩
    have h3' : normLabel l = "タグ".data →
        rest.takeWhile hashLine = [] := by
      intro ht
      have := h3 ht
      cases rest with
      | nil => rfl
      | cons r rs =>
        rw [List.takeWhile_cons_of_neg
          (by simpa using (this : hashLine r = false))]
    rw [normGo_plain f l rest h1 h2 h3']
    have hif : (if normLabel l ≠ l ∧ normLabel l ∈ allLabels
        then normLabel l else l) = l := by
      by_cases hall : normLabel l ∈ allLabels
      · rw [if_neg]
        rintro ⟨hne, -⟩
        exact hne (h4 hall)
      · rw [if_neg]
        rintro ⟨-, hm⟩
        exact hall hm
    rw [hif, ih f (by simp at hlen ⊢; omega)]

end NormProof

/-- C1 counterexample: neither normalizer is idempotent.  For the
scraper's (`hocg_tool2.normalize_raw_text`, default `remove_private`), a
`収録商品` line whose keyword look-ahead window initially holds six
harmless lines acquires a keyword once the `タグ` block is joined, so the
second pass deletes what the first pass kept.  For the refine pass
(`hocg_refine_update.normalize_raw_text`), removing the
`イラストレーター名` block uncovers a free-text line that the second
pass's title relocation promotes, dropping the original title. -/
theorem C1_counterexample :
    (HocgTool.normalize_raw_text false (HocgTool.normalize_raw_text false
        "収録商品\nタグ\n#a\n#b\n#c\n#d\n#e\n発売日") ≠
      HocgTool.normalize_raw_text false
        "収録商品\nタグ\n#a\n#b\n#c\n#d\n#e\n発売日") ∧
    (Refine.normalize_raw_text (Refine.normalize_raw_text
        "MyCard\nイラストレーター名\nSomeone\nFreeText\nアーツ\nsomething") ≠
      Refine.normalize_raw_text
        "MyCard\nイラストレーター名\nSomeone\nFreeText\nアーツ\nsomething") := by
  decide

/-- C1 (amended): the scrape-time normalizer (`remove_private=False`) is
idempotent on every text none of whose cleaned lines normalizes to the
`収録商品` label or to the empty string; full idempotence fails (see the
counterexample) because the `収録商品` keyword look-ahead and the refine
pass's title relocation can both re-fire on already-normalized text. -/
theorem C1_normalize_idempotent_restricted (t : String)
    (h : NormProof.GoodLabels (Hocg.cleanLines t.data)) :
    HocgTool.normalize_raw_text false (HocgTool.normalize_raw_text false t) =
      HocgTool.normalize_raw_text false t := by
  obtain ⟨hcanon, hcleanOut, -, -⟩ :=
    NormProof.normGo_canon (Hocg.cleanLines t.data).length
      (Hocg.cleanLines t.data) (Hocg.cleanLines_clean t.data) h
  show String.mk _ = String.mk _
  congr 1
  have hcleanOut' : NormProof.Clean
      (HocgTool.normLines false (Hocg.cleanLines t.data)) := hcleanOut
  have hcanon' : NormProof.Canon
      (HocgTool.normLines false (Hocg.cleanLines t.data)) := hcanon
  rw [show (HocgTool.normalize_raw_text false t).data =
      Hocg.joinNl (HocgTool.normLines false (Hocg.cleanLines t.data))
    from rfl]
  rw [Hocg.cleanLines_joinNl _ hcleanOut']
  have hfix := NormProof.canon_id _ hcanon'
    (HocgTool.normLines false (Hocg.cleanLines t.data)).length (le_refl _)
  rw [show HocgTool.normLines false (HocgTool.normLines false
      (Hocg.cleanLines t.data)) =
    HocgTool.normLines false (Hocg.cleanLines t.data) from hfix]

/-- Witness for C1 at a concrete card text. -/
theorem C1_normalize_idempotent_restricted_witness :
    NormProof.GoodLabels (Hocg.cleanLines
        "hBP04-002\nカードタイプ\nホロメン\nタグ\n#a\n#b".data) ∧
      HocgTool.normalize_raw_text false (HocgTool.normalize_raw_text false
          "hBP04-002\nカードタイプ\nホロメン\nタグ\n#a\n#b") =
        HocgTool.normalize_raw_text false
          "hBP04-002\nカードタイプ\nホロメン\nタグ\n#a\n#b" :=
  ⟨by decide,
    C1_normalize_idempotent_restricted
      "hBP04-002\nカードタイプ\nホロメン\nタグ\n#a\n#b" (by decide)⟩
